import Mathlib

/-!
Verification development for the `kvs` log-structured key/value store
(`src/kv.rs`).  The store keeps string key/value pairs in append-only
JSON log segments on disk, an in-memory index mapping each key to the
`(generation, offset, length)` of its latest `Set` record, and compacts
segments when a byte counter crosses a threshold.

The embedding below models

* bytes as natural numbers (file contents, keys and values are byte
  lists: the UTF-8 bytes of the Rust `String`s),
* the serde_json record codec (`Command` serialization) at byte level,
  including the string-escaping serde_json performs, together with a
  byte-level decoder that is faithful to serde_json on every byte
  string the store itself ever writes or reads,
* the `KvStore` state (current generation, compacted-generation set,
  reader pool with cached cursors, index, uncompacted-byte counter)
  together with the on-disk segment files, keyed by generation with
  their compacted flag (machine-managed directories contain exactly
  the files `G.log` / `_G.log`, one per generation),
* the operations `set`, `get`, `remove`, `compact`, `open` /
  `build_index` translated clause by clause from `src/kv.rs`, and
* the directory-scan function `get_log_gen` at file-name level.

Rust `panic!`/`expect` failures, `Err(..)` returns and `Ok(..)`
returns are distinguished by the `Res` type.
-/

namespace Kvs

/-- Keys, values and file contents are byte strings: lists of natural
numbers standing for bytes (actual runs use values below 256). -/
abbrev BStr := List Nat

/-- Association-list lookup; models `HashMap::get`. -/
def alookup {α β : Type} [DecidableEq α] (k : α) : List (α × β) → Option β
  | [] => none
  | (k', v) :: t => if k' = k then some v else alookup k t

/-- Association-list erase; models `HashMap::remove` (drops every binding of `k`). -/
def aerase {α β : Type} [DecidableEq α] (k : α) : List (α × β) → List (α × β)
  | [] => []
  | e :: t => if e.1 = k then aerase k t else e :: aerase k t

/-- Association-list insert; models `HashMap::insert` (replaces any old binding). -/
def ainsert {α β : Type} [DecidableEq α] (k : α) (v : β) (l : List (α × β)) : List (α × β) :=
  (k, v) :: aerase k l

theorem alookup_ainsert_self {α β : Type} [DecidableEq α] (k : α) (v : β) (l : List (α × β)) :
    alookup k (ainsert k v l) = some v := by
  simp [ainsert, alookup]

theorem alookup_aerase {α β : Type} [DecidableEq α] (k k' : α) (l : List (α × β)) :
    alookup k' (aerase k l) = if k = k' then none else alookup k' l := by
  induction l with
  | nil => simp [aerase, alookup]
  | cons e t ih =>
    obtain ⟨k0, v0⟩ := e
    by_cases he : k0 = k
    · rw [show aerase k ((k0, v0) :: t) = aerase k t from by simp [aerase, he], ih]
      by_cases hk : k = k'
      · simp [hk]
      · rw [if_neg hk, if_neg hk, alookup, if_neg (fun h0 : k0 = k' => hk (he ▸ h0))]
    · rw [show aerase k ((k0, v0) :: t) = (k0, v0) :: aerase k t from by simp [aerase, he]]
      simp only [alookup]
      by_cases hk : k0 = k'
      · rw [if_pos hk, if_pos hk, if_neg (fun h0 : k = k' => he (hk.trans h0.symm))]
      · rw [if_neg hk, if_neg hk, ih]

theorem alookup_aerase_self {α β : Type} [DecidableEq α] (k : α) (l : List (α × β)) :
    alookup k (aerase k l) = none := by
  simp [alookup_aerase]

theorem alookup_aerase_ne {α β : Type} [DecidableEq α] {k k' : α} (l : List (α × β))
    (h : k ≠ k') : alookup k' (aerase k l) = alookup k' l := by
  simp [alookup_aerase, h]

theorem alookup_ainsert_ne {α β : Type} [DecidableEq α] {k k' : α} (v : β) (l : List (α × β))
    (h : k ≠ k') : alookup k' (ainsert k v l) = alookup k' l := by
  simp only [ainsert, alookup, if_neg h]
  exact alookup_aerase_ne l h

/-- Log records, `enum Command` of `src/kv.rs`: `Set{key, value}` or `Remove{key}`. -/
inductive Command where
  | set (key value : BStr)
  | remove (key : BStr)
deriving DecidableEq

/-- Hex digit byte used by serde_json `\u00XX` escapes (lowercase). -/
def hexDigit (n : Nat) : Nat :=
  if n < 10 then 48 + n else 87 + n

/-- Nat-level JSON string escaping exactly as serde_json performs it:
quote and backslash get two-byte escapes, the control bytes with short
escapes use them, the remaining control bytes use `\u00XX`, and every
other byte is emitted verbatim. -/
def escNat (b : Nat) : List Nat :=
  if b = 34 then [92, 34]
  else if b = 92 then [92, 92]
  else if b = 8 then [92, 98]
  else if b = 9 then [92, 116]
  else if b = 10 then [92, 110]
  else if b = 12 then [92, 102]
  else if b = 13 then [92, 114]
  else if b < 32 then [92, 117, 48, 48, hexDigit (b / 16), hexDigit (b % 16)]
  else [b]

/-- Escape a whole byte string. -/
def escStr : BStr → List Nat
  | [] => []
  | b :: t => escNat b ++ escStr t

/-- The literal bytes of the text between `{` and the first key quote in a
serialized `Set`: the 15 bytes spelling open-brace, quote, S, e, t, quote,
colon, open-brace, quote, k, e, y, quote, colon, quote. -/
def setHead : List Nat := [123, 34, 83, 101, 116, 34, 58, 123, 34, 107, 101, 121, 34, 58, 34]

/-- The 10 literal bytes between the end of the serialized key and the start
of the serialized value in a `Set`: comma, quote, v, a, l, u, e, quote, colon, quote. -/
def midSet : List Nat := [44, 34, 118, 97, 108, 117, 101, 34, 58, 34]

/-- The 18 literal bytes before the serialized key of a `Remove`. -/
def removeHead : List Nat :=
  [123, 34, 82, 101, 109, 111, 118, 101, 34, 58, 123, 34, 107, 101, 121, 34, 58, 34]

/-- The 2 closing braces ending either variant. -/
def objEnd : List Nat := [125, 125]

/-- Nat-level serde_json encoding of a `Command`, exactly the bytes
`serde_json::to_writer` emits for `enum Command`. -/
def encodeCmd : Command → List Nat
  | .set k v => setHead ++ escStr k ++ [34] ++ midSet ++ escStr v ++ [34] ++ objEnd
  | .remove k => removeHead ++ escStr k ++ [34] ++ objEnd

/-- Encoded byte length of a record; this is the `len` the store records. -/
def encLen (c : Command) : Nat := (encodeCmd c).length

/-- Value of a hex-digit byte, accepting the digits and lowercase letters
serde_json emits. -/
def hexVal (b : Nat) : Option Nat :=
  if 48 ≤ b ∧ b ≤ 57 then some (b - 48)
  else if 97 ≤ b ∧ b ≤ 102 then some (b - 87)
  else none

/-- Decoding of a two-byte escape, inverse of the short escapes above
(plus the `\/` escape serde_json accepts). -/
def unescape (b : Nat) : Option Nat :=
  if b = 34 then some 34
  else if b = 92 then some 92
  else if b = 47 then some 47
  else if b = 98 then some 8
  else if b = 116 then some 9
  else if b = 110 then some 10
  else if b = 102 then some 12
  else if b = 114 then some 13
  else none

/-- Value of four hex-digit bytes, as in a `\u`-escape. -/
def hexQuad (a b c d : Nat) : Option Nat :=
  match hexVal a, hexVal b, hexVal c, hexVal d with
  | some a, some b, some c, some d => some (((a * 16 + b) * 16 + c) * 16 + d)
  | _, _, _, _ => none

/-- Fuel-indexed JSON string body decoder: consumes bytes up to and
including the closing quote, undoing the escapes, and returns the decoded
bytes and the unconsumed rest.  One unit of fuel is spent per decoded
byte, so fuel equal to the input length always suffices. -/
def parseStrLoop : Nat → List Nat → Option (BStr × List Nat)
  | 0, _ => none
  | _ + 1, [] => none
  | fuel + 1, b :: rest =>
    if b = 34 then some ([], rest)
    else if b = 92 then
      match rest with
      | [] => none
      | e :: rest2 =>
        if e = 117 then
          match rest2 with
          | h1 :: h2 :: h3 :: h4 :: rest3 =>
            match hexQuad h1 h2 h3 h4 with
            | some n => (parseStrLoop fuel rest3).map (fun p => (n :: p.1, p.2))
            | none => none
          | _ => none
        else
          match unescape e with
          | some ch => (parseStrLoop fuel rest2).map (fun p => (ch :: p.1, p.2))
          | none => none
    else (parseStrLoop fuel rest).map (fun p => (b :: p.1, p.2))

/-- Try to consume the literal byte sequence `p` from the front of `s`. -/
def dropLead : List Nat → List Nat → Option (List Nat)
  | [], s => some s
  | _ :: _, [] => none
  | p :: ps, b :: bs => if b = p then dropLead ps bs else none

/-- Decode one `Command` from the front of a byte string, returning it
together with the unconsumed rest; faithful to one `serde_json`
deserialization step on store-written data. -/
def parseCmd (s : List Nat) : Option (Command × List Nat) :=
  match dropLead setHead s with
  | some r1 =>
    match parseStrLoop r1.length r1 with
    | some (k, r2) =>
      match dropLead midSet r2 with
      | some r3 =>
        match parseStrLoop r3.length r3 with
        | some (v, r4) =>
          match dropLead objEnd r4 with
          | some r5 => some (.set k v, r5)
          | none => none
        | none => none
      | none => none
    | none => none
  | none =>
    match dropLead removeHead s with
    | some r1 =>
      match parseStrLoop r1.length r1 with
      | some (k, r2) =>
        match dropLead objEnd r2 with
        | some r3 => some (.remove k, r3)
        | none => none
      | none => none
    | none => none

/-- Decode a byte string that must hold exactly one record and nothing
else; models `serde_json::from_reader` on a `Take`-limited reader. -/
def decodeOne (s : List Nat) : Option Command :=
  match parseCmd s with
  | some (c, []) => some c
  | _ => none

theorem dropLead_eq_some {p s r : List Nat} : dropLead p s = some r ↔ s = p ++ r := by
  induction p generalizing s with
  | nil => cases s <;> simp [dropLead]
  | cons a p ih =>
    cases s with
    | nil => simp [dropLead]
    | cons b t =>
      by_cases hb : b = a
      · simp [dropLead, hb, ih]
      · simp only [dropLead, if_neg hb]
        constructor
        · intro hc; cases hc
        · intro hc
          injection hc with h1 h2
          exact (hb h1).elim

theorem dropLead_append (p r : List Nat) : dropLead p (p ++ r) = some r :=
  dropLead_eq_some.mpr rfl

theorem hexVal_hexDigit {n : Nat} (h : n < 16) : hexVal (hexDigit n) = some n := by
  interval_cases n <;> decide

theorem hexQuad_digits {b : Nat} (h : b < 32) :
    hexQuad 48 48 (hexDigit (b / 16)) (hexDigit (b % 16)) = some b := by
  unfold hexQuad
  rw [hexVal_hexDigit ((by omega : b / 16 < 16)), hexVal_hexDigit ((by omega : b % 16 < 16)),
    show hexVal 48 = some 0 from rfl]
  simp only []
  congr 1
  omega

theorem escNat_length_pos (b : Nat) : 0 < (escNat b).length := by
  unfold escNat
  repeat' split
  all_goals simp

/-- Decoding inverts encoding for string bodies: after the escaped bytes of
`s` and a closing quote, the decoder returns `s` and the remaining input. -/
theorem parseStrLoop_round (s : BStr) : ∀ (fuel : Nat) (rest : List Nat),
    (escStr s).length + 1 + rest.length ≤ fuel →
    parseStrLoop fuel (escStr s ++ 34 :: rest) = some (s, rest) := by
  induction s with
  | nil =>
    intro fuel rest h
    obtain ⟨f, rfl⟩ : ∃ f, fuel = f + 1 := ⟨fuel - 1, by omega⟩
    simp [escStr, parseStrLoop]
  | cons b t ih =>
    intro fuel rest h
    simp only [escStr, List.length_append] at h
    obtain ⟨f, rfl⟩ : ∃ f, fuel = f + 1 :=
      ⟨fuel - 1, by have := escNat_length_pos b; omega⟩
    simp only [escStr, List.append_assoc]
    by_cases h34 : b = 34
    · have hesc : escNat b = [92, 34] := by simp [escNat, h34]
      rw [hesc] at h
      rw [show escNat b ++ (escStr t ++ 34 :: rest)
          = 92 :: 34 :: (escStr t ++ 34 :: rest) from by rw [hesc]; rfl]
      simp only [parseStrLoop]
      norm_num [unescape]
      rw [ih f rest (by simp only [List.length_cons, List.length_nil] at h; omega)]
      simp [h34]
    · by_cases h92 : b = 92
      · have hesc : escNat b = [92, 92] := by simp [escNat, h34, h92]
        rw [hesc] at h
        rw [show escNat b ++ (escStr t ++ 34 :: rest)
            = 92 :: 92 :: (escStr t ++ 34 :: rest) from by rw [hesc]; rfl]
        simp only [parseStrLoop]
        norm_num [unescape]
        rw [ih f rest (by simp only [List.length_cons, List.length_nil] at h; omega)]
        simp [h92]
      · by_cases h8 : b = 8
        · have hesc : escNat b = [92, 98] := by simp [escNat, h34, h92, h8]
          rw [hesc] at h
          rw [show escNat b ++ (escStr t ++ 34 :: rest)
              = 92 :: 98 :: (escStr t ++ 34 :: rest) from by rw [hesc]; rfl]
          simp only [parseStrLoop]
          norm_num [unescape]
          rw [ih f rest (by simp only [List.length_cons, List.length_nil] at h; omega)]
          simp [h8]
        · by_cases h9 : b = 9
          · have hesc : escNat b = [92, 116] := by simp [escNat, h34, h92, h8, h9]
            rw [hesc] at h
            rw [show escNat b ++ (escStr t ++ 34 :: rest)
                = 92 :: 116 :: (escStr t ++ 34 :: rest) from by rw [hesc]; rfl]
            simp only [parseStrLoop]
            norm_num [unescape]
            rw [ih f rest (by simp only [List.length_cons, List.length_nil] at h; omega)]
            simp [h9]
          · by_cases h10 : b = 10
            · have hesc : escNat b = [92, 110] := by simp [escNat, h34, h92, h8, h9, h10]
              rw [hesc] at h
              rw [show escNat b ++ (escStr t ++ 34 :: rest)
                  = 92 :: 110 :: (escStr t ++ 34 :: rest) from by rw [hesc]; rfl]
              simp only [parseStrLoop]
              norm_num [unescape]
              rw [ih f rest (by simp only [List.length_cons, List.length_nil] at h; omega)]
              simp [h10]
            · by_cases h12 : b = 12
              · have hesc : escNat b = [92, 102] := by simp [escNat, h34, h92, h8, h9, h10, h12]
                rw [hesc] at h
                rw [show escNat b ++ (escStr t ++ 34 :: rest)
                    = 92 :: 102 :: (escStr t ++ 34 :: rest) from by rw [hesc]; rfl]
                simp only [parseStrLoop]
                norm_num [unescape]
                rw [ih f rest (by simp only [List.length_cons, List.length_nil] at h; omega)]
                simp [h12]
              · by_cases h13 : b = 13
                · have hesc : escNat b = [92, 114] := by
                    simp [escNat, h34, h92, h8, h9, h10, h12, h13]
                  rw [hesc] at h
                  rw [show escNat b ++ (escStr t ++ 34 :: rest)
                      = 92 :: 114 :: (escStr t ++ 34 :: rest) from by rw [hesc]; rfl]
                  simp only [parseStrLoop]
                  norm_num [unescape]
                  rw [ih f rest (by simp only [List.length_cons, List.length_nil] at h; omega)]
                  simp [h13]
                · by_cases h32 : b < 32
                  · have hesc : escNat b
                        = [92, 117, 48, 48, hexDigit (b / 16), hexDigit (b % 16)] := by
                      simp [escNat, h34, h92, h8, h9, h10, h12, h13, h32]
                    rw [hesc] at h
                    rw [show escNat b ++ (escStr t ++ 34 :: rest)
                        = 92 :: 117 :: 48 :: 48 :: hexDigit (b / 16) :: hexDigit (b % 16)
                          :: (escStr t ++ 34 :: rest) from by rw [hesc]; rfl]
                    simp only [parseStrLoop]
                    rw [hexQuad_digits h32]
                    norm_num
                    rw [ih f rest (by simp only [List.length_cons, List.length_nil] at h; omega)]
                  · have hesc : escNat b = [b] := by
                      simp [escNat, h34, h92, h8, h9, h10, h12, h13, h32]
                    rw [hesc] at h
                    rw [show escNat b ++ (escStr t ++ 34 :: rest)
                        = b :: (escStr t ++ 34 :: rest) from by rw [hesc]; rfl]
                    simp only [parseStrLoop]
                    rw [if_neg h34, if_neg h92]
                    rw [ih f rest (by simp only [List.length_cons, List.length_nil] at h; omega)]
                    simp

/-- The string decoder consumes at least one byte. -/
theorem parseStrLoop_length : ∀ (fuel : Nat) (s o : BStr) (r : List Nat),
    parseStrLoop fuel s = some (o, r) → r.length < s.length := by
  intro fuel
  induction fuel with
  | zero => intro s o r h; simp [parseStrLoop] at h
  | succ f ih =>
    intro s o r h
    cases s with
    | nil => simp [parseStrLoop] at h
    | cons b rest =>
      simp only [parseStrLoop] at h
      repeat' split at h
      all_goals simp at h
      · obtain ⟨ho, hr⟩ := h
        subst hr
        simp
      all_goals obtain ⟨a, hp, ho⟩ := h
      all_goals have := ih _ a r hp
      all_goals simp only [List.length_cons]
      all_goals omega

/-- Success of the string decoder depends only on the consumed prefix:
appending extra input extends the returned rest and nothing else. -/
theorem parseStrLoop_extend : ∀ (fuel : Nat) (s o : BStr) (r x : List Nat) (fuel' : Nat),
    parseStrLoop fuel s = some (o, r) → fuel ≤ fuel' →
    parseStrLoop fuel' (s ++ x) = some (o, r ++ x) := by
  intro fuel
  induction fuel with
  | zero => intro s o r x fuel' h _; simp [parseStrLoop] at h
  | succ f ih =>
    intro s o r x fuel' h hf
    obtain ⟨f', rfl⟩ : ∃ f', fuel' = f' + 1 := ⟨fuel' - 1, by omega⟩
    have hff : f ≤ f' := by omega
    cases s with
    | nil => simp [parseStrLoop] at h
    | cons b rest =>
      simp only [parseStrLoop] at h
      simp only [List.cons_append, parseStrLoop, List.append_eq]
      by_cases h34 : b = 34
      · rw [if_pos h34] at h
        rw [if_pos h34]
        injection h with h1
        injection h1 with ho hr
        subst ho
        subst hr
        rfl
      · rw [if_neg h34] at h
        rw [if_neg h34]
        by_cases h92 : b = 92
        · rw [if_pos h92] at h
          rw [if_pos h92]
          cases rest with
          | nil => simp at h
          | cons e rest2 =>
            simp only [List.cons_append]
            try simp only [] at h
            try simp only []
            by_cases h117 : e = 117
            · rw [if_pos h117] at h ⊢
              rcases rest2 with _ | ⟨x1, _ | ⟨x2, _ | ⟨x3, _ | ⟨x4, rest3⟩⟩⟩⟩
              · simp at h
              · simp at h
              · simp at h
              · simp at h
              · simp only [List.cons_append] at h ⊢
                cases hq : hexQuad x1 x2 x3 x4 with
                | none => rw [hq] at h; simp at h
                | some n =>
                  rw [hq] at h
                  simp only [Option.map_eq_some'] at h
                  obtain ⟨⟨p1, p2⟩, hp, hg⟩ := h
                  injection hg with ho hr
                  subst ho
                  subst hr
                  rw [show parseStrLoop f' (rest3 ++ x) = some (p1, p2 ++ x) from
                    ih rest3 p1 p2 x f' hp hff]
                  rfl
            · rw [if_neg h117] at h ⊢
              cases hu : unescape e with
              | none => rw [hu] at h; simp at h
              | some ch =>
                rw [hu] at h
                simp only [Option.map_eq_some'] at h
                obtain ⟨⟨p1, p2⟩, hp, hg⟩ := h
                injection hg with ho hr
                subst ho
                subst hr
                rw [show parseStrLoop f' (rest2 ++ x) = some (p1, p2 ++ x) from
                  ih rest2 p1 p2 x f' hp hff]
                rfl
        · rw [if_neg h92] at h
          rw [if_neg h92]
          simp only [Option.map_eq_some'] at h
          obtain ⟨⟨p1, p2⟩, hp, hg⟩ := h
          injection hg with ho hr
          subst ho
          subst hr
          rw [show parseStrLoop f' (rest ++ x) = some (p1, p2 ++ x) from
            ih rest p1 p2 x f' hp hff]
          rfl

theorem dropLead_extend {p s r : List Nat} (x : List Nat) (h : dropLead p s = some r) :
    dropLead p (s ++ x) = some (r ++ x) := by
  rw [dropLead_eq_some] at h ⊢
  rw [h, List.append_assoc]

theorem dropLead_length {p s r : List Nat} (h : dropLead p s = some r) :
    s.length = p.length + r.length := by
  rw [dropLead_eq_some] at h
  rw [h]
  simp

theorem setHead_removeHead_clash (y : List Nat) : dropLead setHead (removeHead ++ y) = none := rfl

/-- One-step decoding inverts encoding: a record followed by anything
decodes to that record with the rest untouched. -/
theorem parseCmd_round (c : Command) (rest : List Nat) :
    parseCmd (encodeCmd c ++ rest) = some (c, rest) := by
  cases c with
  | set k v =>
    have e1 : encodeCmd (.set k v) ++ rest
        = setHead ++ (escStr k ++ 34 :: (midSet ++ (escStr v ++ 34 :: (objEnd ++ rest)))) := by
      simp [encodeCmd, List.append_assoc]
    rw [e1]
    simp only [parseCmd]
    rw [dropLead_append]
    simp only []
    rw [parseStrLoop_round k _ _ (by simp only [List.length_append, List.length_cons]; omega)]
    simp only []
    rw [dropLead_append]
    simp only []
    rw [parseStrLoop_round v _ _ (by simp only [List.length_append, List.length_cons]; omega)]
    simp only []
    rw [show objEnd ++ rest = objEnd ++ rest from rfl, dropLead_append]
  | remove k =>
    have e1 : encodeCmd (.remove k) ++ rest
        = removeHead ++ (escStr k ++ 34 :: (objEnd ++ rest)) := by
      simp [encodeCmd, List.append_assoc]
    rw [e1]
    simp only [parseCmd]
    rw [setHead_removeHead_clash]
    simp only []
    rw [dropLead_append]
    simp only []
    rw [parseStrLoop_round k _ _ (by simp only [List.length_append, List.length_cons]; omega)]
    simp only []
    rw [dropLead_append]

/-- Decoding a single full record. -/
theorem decodeOne_encode (c : Command) : decodeOne (encodeCmd c) = some c := by
  unfold decodeOne
  rw [show encodeCmd c = encodeCmd c ++ [] from by simp, parseCmd_round]

theorem parseCmd_nil : parseCmd [] = none := rfl

/-- One record occupies at least one byte of input. -/
theorem parseCmd_length {s : List Nat} {c : Command} {r : List Nat}
    (h : parseCmd s = some (c, r)) : r.length < s.length := by
  simp only [parseCmd] at h
  cases hd1 : dropLead setHead s with
  | some r1 =>
    rw [hd1] at h
    simp only [] at h
    cases hp1 : parseStrLoop r1.length r1 with
    | none => rw [hp1] at h; simp at h
    | some p1 =>
      obtain ⟨k, r2⟩ := p1
      rw [hp1] at h
      simp only [] at h
      cases hd2 : dropLead midSet r2 with
      | none => rw [hd2] at h; simp at h
      | some r3 =>
        rw [hd2] at h
        simp only [] at h
        cases hp2 : parseStrLoop r3.length r3 with
        | none => rw [hp2] at h; simp at h
        | some p2 =>
          obtain ⟨v, r4⟩ := p2
          rw [hp2] at h
          simp only [] at h
          cases hd3 : dropLead objEnd r4 with
          | none => rw [hd3] at h; simp at h
          | some r5 =>
            rw [hd3] at h
            simp only [] at h
            injection h with h1
            injection h1 with hc hr
            subst hr
            have l1 := dropLead_length hd1
            have l2 := parseStrLoop_length r1.length r1 k r2 hp1
            have l3 := dropLead_length hd2
            have l4 := parseStrLoop_length r3.length r3 v r4 hp2
            have l5 := dropLead_length hd3
            simp [setHead, midSet, objEnd] at l1 l3 l5
            omega
  | none =>
    rw [hd1] at h
    simp only [] at h
    cases hd2 : dropLead removeHead s with
    | none => rw [hd2] at h; simp at h
    | some r1 =>
      rw [hd2] at h
      simp only [] at h
      cases hp1 : parseStrLoop r1.length r1 with
      | none => rw [hp1] at h; simp at h
      | some p1 =>
        obtain ⟨k, r2⟩ := p1
        rw [hp1] at h
        simp only [] at h
        cases hd3 : dropLead objEnd r2 with
        | none => rw [hd3] at h; simp at h
        | some r3 =>
          rw [hd3] at h
          simp only [] at h
          injection h with h1
          injection h1 with hc hr
          subst hr
          have l1 := dropLead_length hd2
          have l2 := parseStrLoop_length r1.length r1 k r2 hp1
          have l3 := dropLead_length hd3
          simp [removeHead, objEnd] at l1 l3
          omega

/-- Success of one-record decoding depends only on the consumed prefix. -/
theorem parseCmd_extend {s : List Nat} {c : Command} {r : List Nat} (x : List Nat)
    (h : parseCmd s = some (c, r)) : parseCmd (s ++ x) = some (c, r ++ x) := by
  simp only [parseCmd] at h ⊢
  cases hd1 : dropLead setHead s with
  | some r1 =>
    rw [hd1] at h
    simp only [] at h
    rw [dropLead_extend x hd1]
    simp only []
    cases hp1 : parseStrLoop r1.length r1 with
    | none => rw [hp1] at h; simp at h
    | some p1 =>
      obtain ⟨k, r2⟩ := p1
      rw [hp1] at h
      simp only [] at h
      rw [parseStrLoop_extend r1.length r1 k r2 x (r1 ++ x).length hp1 (by simp)]
      simp only []
      cases hd2 : dropLead midSet r2 with
      | none => rw [hd2] at h; simp at h
      | some r3 =>
        rw [hd2] at h
        simp only [] at h
        rw [dropLead_extend x hd2]
        simp only []
        cases hp2 : parseStrLoop r3.length r3 with
        | none => rw [hp2] at h; simp at h
        | some p2 =>
          obtain ⟨v, r4⟩ := p2
          rw [hp2] at h
          simp only [] at h
          rw [parseStrLoop_extend r3.length r3 v r4 x (r3 ++ x).length hp2 (by simp)]
          simp only []
          cases hd3 : dropLead objEnd r4 with
          | none => rw [hd3] at h; simp at h
          | some r5 =>
            rw [hd3] at h
            simp only [] at h
            rw [dropLead_extend x hd3]
            simp only []
            injection h with h1
            injection h1 with hc hr
            subst hc
            subst hr
            rfl
  | none =>
    rw [hd1] at h
    simp only [] at h
    cases hd2 : dropLead removeHead s with
    | none => rw [hd2] at h; simp at h
    | some r1 =>
      rw [hd2] at h
      simp only [] at h
      have hs : s = removeHead ++ r1 := dropLead_eq_some.mp hd2
      rw [show s ++ x = removeHead ++ (r1 ++ x) from by rw [hs, List.append_assoc]]
      rw [setHead_removeHead_clash]
      simp only []
      rw [dropLead_append]
      simp only []
      cases hp1 : parseStrLoop r1.length r1 with
      | none => rw [hp1] at h; simp at h
      | some p1 =>
        obtain ⟨k, r2⟩ := p1
        rw [hp1] at h
        simp only [] at h
        rw [parseStrLoop_extend r1.length r1 k r2 x (r1 ++ x).length hp1 (by simp)]
        simp only []
        cases hd3 : dropLead objEnd r2 with
        | none => rw [hd3] at h; simp at h
        | some r3 =>
          rw [hd3] at h
          simp only [] at h
          rw [dropLead_extend x hd3]
          simp only []
          injection h with h1
          injection h1 with hc hr
          subst hc
          subst hr
          rfl

/-- Fuel-indexed streaming decoder with byte positions; models
`serde_json::Deserializer::from_reader(..).into_iter::<Command>()`
together with its `byte_offset` reporting: each yielded record comes
with the absolute offset it starts at and its byte length.  `none`
models the deserialization error the store propagates. -/
def parseLoop : Nat → List Nat → Nat → Option (List (Command × Nat × Nat))
  | _, [], _ => some []
  | 0, _ :: _, _ => none
  | fuel + 1, b :: s, pos =>
    match parseCmd (b :: s) with
    | none => none
    | some (c, r) =>
      (parseLoop fuel r (pos + ((b :: s).length - r.length))).map
        (fun tr => (c, pos, (b :: s).length - r.length) :: tr)

/-- Streaming decode of a whole byte string starting at offset `pos`. -/
def parseAllFrom (s : List Nat) (pos : Nat) : Option (List (Command × Nat × Nat)) :=
  parseLoop s.length s pos

theorem parseLoop_nil (fuel pos : Nat) : parseLoop fuel [] pos = some [] := by
  cases fuel <;> rfl

theorem parseLoop_fuel : ∀ (f1 : Nat) (s : List Nat) (pos f2 : Nat),
    s.length ≤ f1 → s.length ≤ f2 → parseLoop f1 s pos = parseLoop f2 s pos := by
  intro f1
  induction f1 with
  | zero =>
    intro s pos f2 h1 _
    have hs : s = [] := by cases s with | nil => rfl | cons a t => simp at h1
    subst hs
    rw [parseLoop_nil, parseLoop_nil]
  | succ f ih =>
    intro s pos f2 h1 h2
    cases s with
    | nil => rw [parseLoop_nil, parseLoop_nil]
    | cons b t =>
      obtain ⟨f2', rfl⟩ : ∃ g, f2 = g + 1 := ⟨f2 - 1, by simp at h2; omega⟩
      simp only [parseLoop]
      cases hp : parseCmd (b :: t) with
      | none => rfl
      | some cr =>
        obtain ⟨c, r⟩ := cr
        have hlen := parseCmd_length hp
        simp only []
        simp only [List.length_cons] at h1 h2 hlen
        rw [ih r _ f2' (by omega) (by omega)]

/-- A file as the store ever writes it: a concatenation of chunks, each of
which on its own decodes to exactly one record. -/
def chunksBytes : List (List Nat × Command) → List Nat
  | [] => []
  | ch :: t => ch.1 ++ chunksBytes t

/-- The (record, position, length) triples of a chunk list laid out starting
at position `pos`. -/
def chunkTrips : List (List Nat × Command) → Nat → List (Command × Nat × Nat)
  | [], _ => []
  | ch :: t, pos => (ch.2, pos, ch.1.length) :: chunkTrips t (pos + ch.1.length)

/-- Each chunk decodes, by itself and completely, to its record. -/
def ChunksOk (chs : List (List Nat × Command)) : Prop :=
  ∀ ch ∈ chs, parseCmd ch.1 = some (ch.2, [])

theorem parseLoop_chunks : ∀ (chs : List (List Nat × Command)) (fuel pos : Nat),
    ChunksOk chs → (chunksBytes chs).length ≤ fuel →
    parseLoop fuel (chunksBytes chs) pos = some (chunkTrips chs pos) := by
  intro chs
  induction chs with
  | nil =>
    intro fuel pos _ _
    exact parseLoop_nil fuel pos
  | cons ch t ih =>
    obtain ⟨cbytes, ccmd⟩ := ch
    intro fuel pos h hf
    have hch : parseCmd cbytes = some (ccmd, []) := h (cbytes, ccmd) (by simp)
    have hext : parseCmd (cbytes ++ chunksBytes t) = some (ccmd, chunksBytes t) := by
      simpa using parseCmd_extend (chunksBytes t) hch
    cases cbytes with
    | nil => rw [parseCmd_nil] at hch; cases hch
    | cons b cs =>
      simp only [chunksBytes, List.cons_append] at hf ⊢
      obtain ⟨f, rfl⟩ : ∃ f, fuel = f + 1 := ⟨fuel - 1, by simp at hf; omega⟩
      simp only [parseLoop]
      rw [show parseCmd (b :: (cs ++ chunksBytes t)) = some (ccmd, chunksBytes t) from by
        simpa using hext]
      simp only []
      have hlen : (b :: (cs ++ chunksBytes t)).length - (chunksBytes t).length
          = cs.length + 1 := by
        simp
        omega
      rw [hlen]
      rw [parseLoop_fuel f (chunksBytes t) _ (chunksBytes t).length
        (by simp at hf ⊢; omega) le_rfl]
      rw [ih (chunksBytes t).length (pos + (cs.length + 1))
        (fun c hc => h c (by simp [hc])) le_rfl]
      simp [chunkTrips]

theorem parseAllFrom_chunks (chs : List (List Nat × Command)) (h : ChunksOk chs) (pos : Nat) :
    parseAllFrom (chunksBytes chs) pos = some (chunkTrips chs pos) :=
  parseLoop_chunks chs (chunksBytes chs).length pos h le_rfl

theorem chunkTrips_map (chs : List (List Nat × Command)) : ∀ pos,
    (chunkTrips chs pos).map (fun t => t.1) = chs.map (fun ch => ch.2) := by
  induction chs with
  | nil => intro pos; rfl
  | cons ch t ih => intro pos; simp [chunkTrips, ih]

/-- Every streamed triple of a chunked byte string points at a slice that
is exactly its chunk, which in turn decodes to the triple record. -/
theorem chunks_mem_slice : ∀ (chs : List (List Nat × Command)) (pre full : List Nat) (base : Nat),
    full = pre ++ chunksBytes chs → base = pre.length →
    ∀ tr ∈ chunkTrips chs base, ∃ ch ∈ chs,
      tr.1 = ch.2 ∧ tr.2.2 = ch.1.length ∧ ((full.drop tr.2.1).take tr.2.2 = ch.1 ∧
      tr.2.1 + tr.2.2 ≤ full.length) := by
  intro chs
  induction chs with
  | nil => intro pre full base _ _ tr htr; simp [chunkTrips] at htr
  | cons ch t ih =>
    obtain ⟨cbytes, ccmd⟩ := ch
    intro pre full base hfull hbase tr htr
    simp only [chunkTrips, List.mem_cons] at htr
    rcases htr with h1 | h2
    · subst h1
      refine ⟨(cbytes, ccmd), by simp, rfl, rfl, ?_, ?_⟩
      · subst hfull
        subst hbase
        simp only [chunksBytes]
        rw [show pre ++ (cbytes ++ chunksBytes t) = pre ++ cbytes ++ chunksBytes t from by
          rw [List.append_assoc]]
        rw [show (pre ++ cbytes ++ chunksBytes t).drop pre.length
            = (cbytes ++ chunksBytes t) from by
          rw [List.append_assoc, List.drop_left]]
        exact List.take_left cbytes (chunksBytes t)
      · subst hfull
        subst hbase
        simp [chunksBytes]
    · have := ih (pre ++ cbytes) full (base + cbytes.length)
        (by rw [hfull]; simp [chunksBytes, List.append_assoc])
        (by rw [hbase]; simp) tr h2
      obtain ⟨c, hc, rest⟩ := this
      exact ⟨c, by simp [hc], rest⟩

/-- Error taxonomy, `enum KvsError` of `src/error.rs`. -/
inductive KvsError where
  | io
  | deserialization
  | keyNotFound
deriving DecidableEq

/-- Outcome of one store operation: an Ok value, an Err, or a Rust panic
(an `expect` / `unwrap` failure). -/
inductive Res (α : Type) where
  | panic
  | err (e : KvsError)
  | ok (a : α)
deriving DecidableEq

/-- Struct `CommandPos` of `src/kv.rs`: generation, byte offset and byte
length of one record in a segment. -/
structure CommandPos where
  gen : Nat
  pos : Nat
  len : Nat
deriving DecidableEq

/-- On-disk segment files of the store directory, keyed by generation:
`(g, true, bytes)` stands for the file `_g.log`, `(g, false, bytes)` for
`g.log`.  Machine-managed directories never hold two files with the same
generation. -/
abbrev Files := List (Nat × Bool × List Nat)

/-- The reader pool, generation to cached cursor offset.  Reads go through
the segment files; the cursor is only the `BufReader` seek position. -/
abbrev Readers := List (Nat × Nat)

/-- The in-memory index, key to `CommandPos`. -/
abbrev Index := List (BStr × CommandPos)

/-- The `KvStore` struct of `src/kv.rs` together with the files of its
directory.  The writer is implicit: appends go to `files` at
`current_gen` (the writer opened the file in append mode and flushes
before every operation returns, so file contents always reflect every
completed write). -/
structure KvStore where
  current_gen : Nat
  compacted_gen : List Nat
  readers : Readers
  index : Index
  uncompacted_size : Nat
  files : Files
deriving DecidableEq

/-- `const COMPACTION_THRESHOLD: u64 = 4 * 1024 * 1024`. -/
def COMPACTION_THRESHOLD : Nat := 4 * 1024 * 1024

/-- Append bytes to the file of generation `g` (the writer's append-mode
write followed by flush). -/
def fappend (g : Nat) (bs : List Nat) : Files → Files
  | [] => []
  | e :: t => if e.1 = g then (e.1, e.2.1, e.2.2 ++ bs) :: fappend g bs t
      else e :: fappend g bs t

/-- Move the cached cursor of reader `g`. -/
def rsetCursor (g c : Nat) : Readers → Readers
  | [] => []
  | e :: t => if e.1 = g then (e.1, c) :: rsetCursor g c t else e :: rsetCursor g c t

/-- Byte length of the file of generation `g` (0 if absent). -/
def fileLen (g : Nat) (fs : Files) : Nat :=
  match alookup g fs with
  | some fe => fe.2.length
  | none => 0

/-- Sum of the sizes of the compacted segments, the initial value of the
uncompacted-byte counter computed by `create_file_readers`. -/
def sumCompactedSizes : Files → Nat
  | [] => 0
  | e :: t => (if e.2.1 then e.2.2.length else 0) + sumCompactedSizes t

/-- Insertion into a list sorted by generation ascending. -/
def insertPair (p : Bool × Nat) : List (Bool × Nat) → List (Bool × Nat)
  | [] => [p]
  | q :: t => if p.2 < q.2 then p :: q :: t else q :: insertPair p t

/-- Sorting by generation ascending, the `sort_unstable_by` of
`get_log_gen`. -/
def sortPairs : List (Bool × Nat) → List (Bool × Nat)
  | [] => []
  | p :: t => insertPair p (sortPairs t)

/-- One replay step of `build_index`: a `Set` overwrites the index entry
with the record position, a `Remove` deletes the entry. -/
def applyTrip (gen : Nat) (idx : Index) (t : Command × Nat × Nat) : Index :=
  match t.1 with
  | Command.set k _ => ainsert k ⟨gen, t.2.1, t.2.2⟩ idx
  | Command.remove k => aerase k idx

/-- `KvStore::build_index`: stream every segment in generation order,
folding the records into the index; a record that fails to decode aborts
`open` with a deserialization error. -/
def buildIndexAll : List (Bool × Nat) → Files → Index → Except KvsError Index
  | [], _, idx => Except.ok idx
  | p :: t, fs, idx =>
    match alookup p.2 fs with
    | none => Except.error KvsError.io
    | some fe =>
      match parseAllFrom fe.2 0 with
      | none => Except.error KvsError.deserialization
      | some tr => buildIndexAll t fs (tr.foldl (applyTrip p.2) idx)

/-- The copy loop of `KvStore::compact`: for every index entry, copy the
referenced record bytes from its current segment into the compaction
segment, and repoint the entry at `(compaction_gen, compaction_pos, len)`.
`none` models the `expect` panic when an indexed generation has no
reader. -/
def copyLoop (cgen : Nat) : Index → Files → Readers → Nat →
    Option (Index × List Nat × Readers)
  | [], _, rs, _ => some ([], [], rs)
  | (k, p) :: t, fs, rs, cpos =>
    match alookup p.gen rs with
    | none => none
    | some _ =>
      match alookup p.gen fs with
      | none => none
      | some fe =>
        let bytes := (fe.2.drop p.pos).take p.len
        let rs1 := rsetCursor p.gen (p.pos + p.len) rs
        match copyLoop cgen t fs rs1 (cpos + p.len) with
        | none => none
        | some (idx, acc, rs2) => some ((k, ⟨cgen, cpos, p.len⟩) :: idx, bytes ++ acc, rs2)

/-- The stale-segment deletion loop of `KvStore::compact`: for every stale
generation, drop its reader, fix the compacted-generation set, and delete
the file named by the generation and its recorded compacted flag; a
missing file is an IO error (`fs::remove_file` fails). -/
def deleteLoop : List Nat → List Nat → Readers → Files →
    Option (List Nat × Readers × Files)
  | [], cg, rs, fs => some (cg, rs, fs)
  | g :: t, cg, rs, fs =>
    match alookup g rs with
    | none => deleteLoop t cg rs fs
    | some _ =>
      let compacted := cg.contains g
      let cg1 := if compacted then cg.erase g else cg
      let rs1 := aerase g rs
      match alookup g fs with
      | none => none
      | some fe =>
        if fe.1 = compacted then deleteLoop t cg1 rs1 (aerase g fs)
        else none

/-- `KvStore::compact`, translated step by step: reserve generations
`current + 1` (compaction output) and `current + 2` (new live), switch
the writer and insert the new live reader, copy every indexed record
into the compaction segment while repointing the index, insert the
compaction reader, then delete every stale generation. -/
def KvStore.compact (s : KvStore) : Res Unit × KvStore :=
  let compactionGen := s.current_gen + 1
  let newGen := s.current_gen + 2
  let s1 : KvStore := { s with
    current_gen := newGen,
    compacted_gen := compactionGen :: s.compacted_gen,
    uncompacted_size := 0,
    files := (s.files ++ [(compactionGen, true, [])]) ++ [(newGen, false, [])],
    readers := ainsert newGen 0 s.readers }
  match copyLoop compactionGen s1.index s1.files s1.readers 0 with
  | none => (Res.panic, s1)
  | some (idx1, comp, rs2) =>
    let s2 : KvStore := { s1 with
      index := idx1,
      files := fappend compactionGen comp s1.files,
      readers := ainsert compactionGen 0 rs2 }
    let stale := (s2.readers.map (fun r => r.1)).filter (fun g => decide (g < compactionGen))
    match deleteLoop stale s2.compacted_gen s2.readers s2.files with
    | none => (Res.err KvsError.io, s2)
    | some cgrsfs =>
      let s3 : KvStore := { s2 with
        compacted_gen := cgrsfs.1,
        readers := cgrsfs.2.1,
        files := cgrsfs.2.2 }
      (Res.ok (), s3)

/-- `KvStore::set`: append the encoded `Set` record to the current live
segment, repoint the index entry, add the record length to the
uncompacted-byte counter, and compact when the counter crosses the
threshold. -/
def KvStore.set (s : KvStore) (k v : BStr) : Res Unit × KvStore :=
  match alookup s.current_gen s.files with
  | none => (Res.err KvsError.io, s)
  | some fe =>
    let cmd := Command.set k v
    let s1 : KvStore := { s with
      files := fappend s.current_gen (encodeCmd cmd) s.files,
      index := ainsert k ⟨s.current_gen, fe.2.length, encLen cmd⟩ s.index,
      uncompacted_size := s.uncompacted_size + encLen cmd }
    if COMPACTION_THRESHOLD < s1.uncompacted_size then s1.compact
    else (Res.ok (), s1)

/-- `KvStore::get`: consult the index; on a hit, find the reader for the
entry generation (a missing reader is the `expect` panic), seek, read
exactly `len` bytes and decode them; a decoded `Set` yields its value, a
decoded `Remove` yields `Err(KeyNotFound)`. -/
def KvStore.get (s : KvStore) (k : BStr) : Res (Option BStr) × KvStore :=
  match alookup k s.index with
  | none => (Res.ok none, s)
  | some p =>
    match alookup p.gen s.readers with
    | none => (Res.panic, s)
    | some _ =>
      match alookup p.gen s.files with
      | none => (Res.err KvsError.io, s)
      | some fe =>
        let s1 : KvStore := { s with readers := rsetCursor p.gen (p.pos + p.len) s.readers }
        match decodeOne ((fe.2.drop p.pos).take p.len) with
        | none => (Res.err KvsError.deserialization, s1)
        | some (Command.set _ v) => (Res.ok (some v), s1)
        | some (Command.remove _) => (Res.err KvsError.keyNotFound, s1)

/-- `KvStore::remove`: on a key present in the index, append the encoded
`Remove` record, drop the index entry, add the removed entry's recorded
length to the uncompacted-byte counter, and compact when the counter
crosses the threshold; otherwise `Err(KeyNotFound)`. -/
def KvStore.remove (s : KvStore) (k : BStr) : Res Unit × KvStore :=
  match alookup k s.index with
  | none => (Res.err KvsError.keyNotFound, s)
  | some p =>
    match alookup s.current_gen s.files with
    | none => (Res.err KvsError.io, s)
    | some _ =>
      let s1 : KvStore := { s with
        files := fappend s.current_gen (encodeCmd (Command.remove k)) s.files,
        index := aerase k s.index,
        uncompacted_size := s.uncompacted_size + p.len }
      if COMPACTION_THRESHOLD < s1.uncompacted_size then s1.compact
      else (Res.ok (), s1)

/-- The oracle variant of `set` that never compacts (identical to
`KvStore::set` with the threshold check removed). -/
def KvStore.setNC (s : KvStore) (k v : BStr) : Res Unit × KvStore :=
  match alookup s.current_gen s.files with
  | none => (Res.err KvsError.io, s)
  | some fe =>
    let cmd := Command.set k v
    let s1 : KvStore := { s with
      files := fappend s.current_gen (encodeCmd cmd) s.files,
      index := ainsert k ⟨s.current_gen, fe.2.length, encLen cmd⟩ s.index,
      uncompacted_size := s.uncompacted_size + encLen cmd }
    (Res.ok (), s1)

/-- The oracle variant of `remove` that never compacts. -/
def KvStore.removeNC (s : KvStore) (k : BStr) : Res Unit × KvStore :=
  match alookup k s.index with
  | none => (Res.err KvsError.keyNotFound, s)
  | some p =>
    match alookup s.current_gen s.files with
    | none => (Res.err KvsError.io, s)
    | some _ =>
      let s1 : KvStore := { s with
        files := fappend s.current_gen (encodeCmd (Command.remove k)) s.files,
        index := aerase k s.index,
        uncompacted_size := s.uncompacted_size + p.len }
      (Res.ok (), s1)

/-- `KvStore::open` on a directory, given as the generation-keyed segment
files it holds: scan and sort, rebuild the compacted-generation set,
choose the current generation (a compacted largest segment bumps it by
one, a live one is reused, an empty directory starts at 1), initialize
the counter with the compacted sizes, build the index, create the current
log file if it is missing, and create a reader for it only when the
directory was empty, exactly as `src/kv.rs` lines 58-107 do. -/
def openStore (dir : Files) : Except KvsError KvStore :=
  let pairs := sortPairs (dir.map (fun e => (e.2.1, e.1)))
  let curGen := match pairs.getLast? with
    | some p => if p.1 then p.2 + 1 else p.2
    | none => 1
  match buildIndexAll pairs dir [] with
  | Except.error e => Except.error e
  | Except.ok idx =>
    let files1 := match alookup curGen dir with
      | some _ => dir
      | none => dir ++ [(curGen, false, [])]
    let rds := pairs.map (fun p => (p.2, fileLen p.2 dir))
    let st : KvStore := {
      current_gen := curGen,
      compacted_gen := (pairs.filter (fun p => p.1)).map (fun p => p.2),
      readers := if pairs.isEmpty then rds ++ [(curGen, 0)] else rds,
      index := idx,
      uncompacted_size := sumCompactedSizes dir,
      files := files1 }
    Except.ok st

/-- One client operation. -/
inductive Op where
  | set (k v : BStr)
  | remove (k : BStr)
  | get (k : BStr)

/-- Observable outcome of one operation. -/
inductive Obs where
  | unitRes (r : Res Unit)
  | valRes (r : Res (Option BStr))
deriving DecidableEq

/-- One step of the store machine. -/
def stepObs (s : KvStore) : Op → Obs × KvStore
  | Op.set k v => let r := s.set k v; (Obs.unitRes r.1, r.2)
  | Op.remove k => let r := s.remove k; (Obs.unitRes r.1, r.2)
  | Op.get k => let r := s.get k; (Obs.valRes r.1, r.2)

/-- One step of the oracle machine that never compacts. -/
def stepObsNC (s : KvStore) : Op → Obs × KvStore
  | Op.set k v => let r := s.setNC k v; (Obs.unitRes r.1, r.2)
  | Op.remove k => let r := s.removeNC k; (Obs.unitRes r.1, r.2)
  | Op.get k => let r := s.get k; (Obs.valRes r.1, r.2)

/-- Run a list of operations, returning the final state. -/
def runOps (step : KvStore → Op → Obs × KvStore) : KvStore → List Op → KvStore
  | s, [] => s
  | s, op :: t => runOps step (step s op).2 t

/-- Run a list of operations, returning the observation trace. -/
def traceOps (step : KvStore → Op → Obs × KvStore) : KvStore → List Op → List Obs
  | _, [] => []
  | s, op :: t => (step s op).1 :: traceOps step (step s op).2 t

/-- The store `open` creates on an empty directory. -/
def initStore : KvStore := {
  current_gen := 1
  compacted_gen := []
  readers := [(1, 0)]
  index := []
  uncompacted_size := 0
  files := [(1, false, [])] }

theorem openStore_empty : openStore [] = Except.ok initStore := rfl

/-- The value a `get` of `k` would observe: the index entry, the slice of
the segment it points at, decoded. -/
def stateVal (s : KvStore) (k : BStr) : Option BStr :=
  match alookup k s.index with
  | none => none
  | some p =>
    match alookup p.gen s.files with
    | none => none
    | some fe =>
      match decodeOne ((fe.2.drop p.pos).take p.len) with
      | some (Command.set _ v) => some v
      | _ => none

/-- Replay of one record into a key/value map. -/
def applyCmd (m : List (BStr × BStr)) : Command → List (BStr × BStr)
  | Command.set k v => ainsert k v m
  | Command.remove k => aerase k m

/-- Replay one segment file into a key/value map. -/
def replayFile (m : List (BStr × BStr)) (content : List Nat) : List (BStr × BStr) :=
  match parseAllFrom content 0 with
  | some tr => tr.foldl (fun m t => applyCmd m t.1) m
  | none => m

/-- Replay all segment files, oldest generation first (the files list is
kept in ascending generation order). -/
def replayAll (fs : Files) : List (BStr × BStr) :=
  fs.foldl (fun m e => replayFile m e.2.2) []

/-- Invariant of every store state reachable from `open`. -/
structure Inv (s : KvStore) : Prop where
  files_sorted : s.files.Pairwise (fun a b => a.1 < b.1)
  cur_live : ∃ c, alookup s.current_gen s.files = some (false, c)
  gens_le : ∀ e ∈ s.files, e.1 ≤ s.current_gen
  files_readers : ∀ e ∈ s.files, ∃ cur, alookup e.1 s.readers = some cur
  readers_files : ∀ r ∈ s.readers, ∃ e ∈ s.files, e.1 = r.1
  readers_nodup : (s.readers.map (fun r => r.1)).Nodup
  flags_match : ∀ e ∈ s.files, (e.2.1 = true ↔ e.1 ∈ s.compacted_gen)
  compacted_sub : ∀ g ∈ s.compacted_gen, ∃ e ∈ s.files, e.1 = g
  compacted_nodup : s.compacted_gen.Nodup
  idx_nodup : (s.index.map (fun e => e.1)).Nodup
  idx_pos : ∀ k p, alookup k s.index = some p →
    ∃ fl content, alookup p.gen s.files = some (fl, content) ∧
      p.pos + p.len ≤ content.length ∧
      ∃ v, decodeOne ((content.drop p.pos).take p.len) = some (Command.set k v)
  files_chunks : ∀ e ∈ s.files, ∃ chs, e.2.2 = chunksBytes chs ∧ ChunksOk chs
  replay_eq : ∀ k, alookup k (replayAll s.files) = stateVal s k

theorem alookup_isSome {α β : Type} [DecidableEq α] (g : α) (l : List (α × β)) :
    (alookup g l).isSome = true ↔ g ∈ l.map (fun e => e.1) := by
  induction l with
  | nil => simp [alookup]
  | cons e t ih =>
    by_cases he : e.1 = g
    · simp [alookup, he]
    · simp only [alookup, if_pos, if_neg he, List.map_cons, List.mem_cons]
      rw [ih]
      constructor
      · intro h; exact Or.inr h
      · intro h
        rcases h with h | h
        · exact absurd h.symm he
        · exact h

theorem alookup_fappend (g g' : Nat) (bs : List Nat) (fs : Files) :
    alookup g' (fappend g bs fs)
      = if g = g' then (alookup g' fs).map (fun fe => (fe.1, fe.2 ++ bs))
        else alookup g' fs := by
  induction fs with
  | nil => by_cases hgg : g = g' <;> simp [fappend, alookup, hgg]
  | cons e t ih =>
    obtain ⟨g0, fl0, c0⟩ := e
    simp only [fappend]
    by_cases heg : g0 = g
    · rw [if_pos (by simpa using heg)]
      by_cases hg0' : g0 = g'
      · have hgg : g = g' := by omega
        simp [alookup, hg0', hgg, ih]
      · have hgg : ¬ g = g' := by omega
        simp [alookup, hg0', hgg, ih]
    · rw [if_neg (by simpa using heg)]
      by_cases hg0' : g0 = g'
      · have hgg : ¬ g = g' := by omega
        simp [alookup, hg0', hgg]
      · simp [alookup, hg0', ih]

theorem fappend_map_fst (g : Nat) (bs : List Nat) (fs : Files) :
    (fappend g bs fs).map (fun e => e.1) = fs.map (fun e => e.1) := by
  induction fs with
  | nil => rfl
  | cons e t ih =>
    obtain ⟨g0, fl0, c0⟩ := e
    simp only [fappend]
    by_cases heg : g0 = g
    · rw [if_pos (by simpa using heg)]
      simp [ih]
    · rw [if_neg (by simpa using heg)]
      simp [ih]

theorem alookup_rsetCursor (g g' c : Nat) (rs : Readers) :
    alookup g' (rsetCursor g c rs)
      = if g = g' then (alookup g' rs).map (fun _ => c) else alookup g' rs := by
  induction rs with
  | nil => by_cases hgg : g = g' <;> simp [rsetCursor, alookup, hgg]
  | cons e t ih =>
    obtain ⟨g0, c0⟩ := e
    simp only [rsetCursor]
    by_cases heg : g0 = g
    · rw [if_pos (by simpa using heg)]
      by_cases hg0' : g0 = g'
      · have hgg : g = g' := by omega
        simp [alookup, hg0', hgg, ih]
      · have hgg : ¬ g = g' := by omega
        simp [alookup, hg0', hgg, ih]
    · rw [if_neg (by simpa using heg)]
      by_cases hg0' : g0 = g'
      · have hgg : ¬ g = g' := by omega
        simp [alookup, hg0', hgg]
      · simp [alookup, hg0', ih]

theorem rsetCursor_map_fst (g c : Nat) (rs : Readers) :
    (rsetCursor g c rs).map (fun e => e.1) = rs.map (fun e => e.1) := by
  induction rs with
  | nil => rfl
  | cons e t ih =>
    obtain ⟨g0, c0⟩ := e
    simp only [rsetCursor]
    by_cases heg : g0 = g
    · rw [if_pos (by simpa using heg)]
      simp [ih]
    · rw [if_neg (by simpa using heg)]
      simp [ih]

/-- Replacing the reader pool by one with the same generations preserves
the invariant (the cached cursor values are irrelevant to it). -/
theorem Inv_readers_update {s : KvStore} (h : Inv s) (rs' : Readers)
    (hk : rs'.map (fun r => r.1) = s.readers.map (fun r => r.1)) :
    Inv { s with readers := rs' } := by
  refine ⟨h.files_sorted, h.cur_live, h.gens_le, ?_, ?_, ?_, h.flags_match, h.compacted_sub,
    h.compacted_nodup, h.idx_nodup, h.idx_pos, h.files_chunks, h.replay_eq⟩
  · intro e he
    obtain ⟨cur, hcur⟩ := h.files_readers e he
    have h1 : e.1 ∈ rs'.map (fun r => r.1) := by
      rw [hk]
      rw [← alookup_isSome]
      simp [hcur]
    rw [← alookup_isSome] at h1
    cases hl : alookup e.1 rs' with
    | none => rw [hl] at h1; simp at h1
    | some cur' => exact ⟨cur', rfl⟩
  · intro r hr
    have h1 : r.1 ∈ s.readers.map (fun e => e.1) := by
      rw [← hk]
      exact List.mem_map.mpr ⟨r, hr, rfl⟩
    obtain ⟨r0, hr0, hr0e⟩ := List.mem_map.mp h1
    exact h.readers_files r0 hr0 |>.imp (fun e he => ⟨he.1, he.2.trans hr0e⟩)
  · rw [hk]
    exact h.readers_nodup

/-- Under the invariant, `get` returns `Ok` of the abstract value and
changes nothing but reader cursors. -/
theorem get_spec {s : KvStore} (h : Inv s) (k : BStr) :
    (s.get k).1 = Res.ok (stateVal s k) ∧
    (s.get k).2.readers.map (fun r => r.1) = s.readers.map (fun r => r.1) ∧
    (s.get k).2 = { s with readers := (s.get k).2.readers } := by
  unfold KvStore.get
  cases hi : alookup k s.index with
  | none => simp [stateVal, hi]
  | some p =>
    obtain ⟨fl, content, hfc, hlen, v, hdec⟩ := h.idx_pos k p hi
    have hginfiles : p.gen ∈ s.files.map (fun e => e.1) := by
      rw [← alookup_isSome]
      simp [hfc]
    obtain ⟨e, hef, hee⟩ := List.mem_map.mp hginfiles
    obtain ⟨cur, hcur⟩ := h.files_readers e hef
    rw [hee] at hcur
    simp only []
    rw [hcur]
    simp only []
    rw [hfc]
    simp only []
    rw [hdec]
    simp only []
    refine ⟨?_, rsetCursor_map_fst p.gen (p.pos + p.len) s.readers, trivial⟩
    simp [stateVal, hi, hfc, hdec]

theorem mem_map_fst_aerase {α β : Type} [DecidableEq α] (k a : α) (l : List (α × β)) :
    a ∈ (aerase k l).map (fun e => e.1) ↔ (a ∈ l.map (fun e => e.1) ∧ a ≠ k) := by
  induction l with
  | nil => simp [aerase]
  | cons e t ih =>
    by_cases he : e.1 = k
    · rw [show aerase k (e :: t) = aerase k t from by simp [aerase, he]]
      rw [ih]
      simp only [List.map_cons, List.mem_cons]
      constructor
      · exact fun hh => ⟨Or.inr hh.1, hh.2⟩
      · rintro ⟨h1 | h1, h2⟩
        · exact absurd (h1.trans he) h2
        · exact ⟨h1, h2⟩
    · rw [show aerase k (e :: t) = e :: aerase k t from by simp [aerase, he]]
      simp only [List.map_cons, List.mem_cons]
      rw [ih]
      constructor
      · rintro (h1 | ⟨h1, h2⟩)
        · exact ⟨Or.inl h1, fun hh => he (h1 ▸ hh)⟩
        · exact ⟨Or.inr h1, h2⟩
      · rintro ⟨h1 | h1, h2⟩
        · exact Or.inl h1
        · exact Or.inr ⟨h1, h2⟩

theorem nodup_aerase {α β : Type} [DecidableEq α] (k : α) (l : List (α × β))
    (h : (l.map (fun e => e.1)).Nodup) : ((aerase k l).map (fun e => e.1)).Nodup := by
  induction l with
  | nil => simp [aerase]
  | cons e t ih =>
    simp only [List.map_cons, List.nodup_cons] at h
    by_cases he : e.1 = k
    · rw [show aerase k (e :: t) = aerase k t from by simp [aerase, he]]
      exact ih h.2
    · rw [show aerase k (e :: t) = e :: aerase k t from by simp [aerase, he]]
      simp only [List.map_cons, List.nodup_cons]
      refine ⟨fun hmem => ?_, ih h.2⟩
      exact h.1 ((mem_map_fst_aerase k e.1 t).mp hmem).1

theorem nodup_ainsert {α β : Type} [DecidableEq α] (k : α) (v : β) (l : List (α × β))
    (h : (l.map (fun e => e.1)).Nodup) : ((ainsert k v l).map (fun e => e.1)).Nodup := by
  simp only [ainsert, List.map_cons, List.nodup_cons]
  refine ⟨fun hmem => ?_, nodup_aerase k l h⟩
  exact absurd ((mem_map_fst_aerase k k l).mp hmem).2 (by simp)

theorem fappend_mem {g : Nat} {bs : List Nat} {fs : Files} :
    ∀ e ∈ fappend g bs fs, ∃ e0 ∈ fs, e.1 = e0.1 ∧ e.2.1 = e0.2.1 ∧
      (e.2.2 = e0.2.2 ∨ (e0.1 = g ∧ e.2.2 = e0.2.2 ++ bs)) := by
  induction fs with
  | nil => intro e he; simp [fappend] at he
  | cons e0 t ih =>
    intro e he
    by_cases h0 : e0.1 = g
    · rw [show fappend g bs (e0 :: t) = (e0.1, e0.2.1, e0.2.2 ++ bs) :: fappend g bs t from by
        simp [fappend, h0]] at he
      rcases List.mem_cons.mp he with h1 | h1
      · exact ⟨e0, by simp, by rw [h1], by rw [h1], Or.inr ⟨h0, by rw [h1]⟩⟩
      · obtain ⟨e1, he1, rest⟩ := ih e h1
        exact ⟨e1, by simp [he1], rest⟩
    · rw [show fappend g bs (e0 :: t) = e0 :: fappend g bs t from by
        simp [fappend, h0]] at he
      rcases List.mem_cons.mp he with h1 | h1
      · exact ⟨e0, by simp, by rw [h1], by rw [h1], Or.inl (by rw [h1])⟩
      · obtain ⟨e1, he1, rest⟩ := ih e h1
        exact ⟨e1, by simp [he1], rest⟩

theorem fappend_append (g : Nat) (bs : List Nat) (l1 l2 : Files) :
    fappend g bs (l1 ++ l2) = fappend g bs l1 ++ fappend g bs l2 := by
  induction l1 with
  | nil => rfl
  | cons e t ih =>
    by_cases h0 : e.1 = g
    · simp only [List.cons_append, fappend, if_pos h0, List.append_eq]
      rw [ih]
    · simp only [List.cons_append, fappend, if_neg h0, List.append_eq]
      rw [ih]

theorem fappend_not_mem {g : Nat} {bs : List Nat} {fs : Files}
    (h : ∀ e ∈ fs, e.1 ≠ g) : fappend g bs fs = fs := by
  induction fs with
  | nil => rfl
  | cons e t ih =>
    rw [show fappend g bs (e :: t) = e :: fappend g bs t from by
      simp [fappend, h e (by simp)]]
    rw [ih (fun e' he' => h e' (by simp [he']))]

/-- Slices inside the original part of an extended file are unchanged. -/
theorem slice_append_left {c x : List Nat} {p l : Nat} (h : p + l ≤ c.length) :
    (((c ++ x).drop p).take l) = ((c.drop p).take l) := by
  rw [List.drop_append_of_le_length (by omega)]
  rw [List.take_append_of_le_length (by simp; omega)]

/-- In a generation-sorted file list, the entry of the maximal present
generation is the last one. -/
theorem files_split {fs : Files} {g : Nat} {x : Bool × List Nat}
    (hs : fs.Pairwise (fun a b => a.1 < b.1))
    (hl : alookup g fs = some x) (hle : ∀ e ∈ fs, e.1 ≤ g) :
    ∃ pre, fs = pre ++ [(g, x)] ∧ ∀ e ∈ pre, e.1 < g := by
  induction fs with
  | nil => simp [alookup] at hl
  | cons e t ih =>
    by_cases he : e.1 = g
    · have ht : t = [] := by
        cases t with
        | nil => rfl
        | cons e1 t1 =>
          exfalso
          have h1 : e.1 < e1.1 := (List.pairwise_cons.mp hs).1 e1 (by simp)
          have h2 : e1.1 ≤ g := hle e1 (by simp)
          omega
      subst ht
      rw [show alookup g [e] = some e.2 from by simp [alookup, he]] at hl
      obtain ⟨e1, e2⟩ := e
      injection hl with hl
      refine ⟨[], ?_, by simp⟩
      simp only at he
      rw [he, show e2 = x from hl]
      rfl
    · rw [show alookup g (e :: t) = alookup g t from by simp [alookup, he]] at hl
      obtain ⟨pre, hpre, hlt⟩ := ih (List.pairwise_cons.mp hs).2 hl
        (fun e' he' => hle e' (by simp [he']))
      refine ⟨e :: pre, by rw [List.cons_append, hpre], ?_⟩
      intro e' he'
      rcases List.mem_cons.mp he' with h1 | h1
      · subst h1
        have := hle e' (by simp)
        omega
      · exact hlt e' h1

theorem chunksBytes_append (l1 l2 : List (List Nat × Command)) :
    chunksBytes (l1 ++ l2) = chunksBytes l1 ++ chunksBytes l2 := by
  induction l1 with
  | nil => rfl
  | cons ch t ih => simp [chunksBytes, ih]

/-- Replay of a chunked file is the fold of its record list. -/
theorem replayFile_chunks (m : List (BStr × BStr)) (chs : List (List Nat × Command))
    (h : ChunksOk chs) :
    replayFile m (chunksBytes chs) = (chs.map (fun ch => ch.2)).foldl applyCmd m := by
  unfold replayFile
  rw [parseAllFrom_chunks chs h 0]
  simp only []
  rw [show (chunkTrips chs 0).foldl (fun m t => applyCmd m t.1) m
      = ((chunkTrips chs 0).map (fun t => t.1)).foldl applyCmd m from by
    rw [List.foldl_map]]
  rw [chunkTrips_map]

theorem replayAll_append_single (l : Files) (e : Nat × Bool × List Nat) :
    replayAll (l ++ [e]) = replayFile (replayAll l) e.2.2 := by
  unfold replayAll
  rw [List.foldl_append]
  rfl

theorem pairwise_fst {l : Files} :
    l.Pairwise (fun a b => a.1 < b.1) ↔ (l.map (fun e => e.1)).Pairwise (fun a b => a < b) := by
  rw [List.pairwise_map]

/-- The state after the append/index/counter phase of `set` (before any
compaction), when the current live file holds `c`. -/
def setState (s : KvStore) (k v : BStr) (c : List Nat) : KvStore := { s with
  files := fappend s.current_gen (encodeCmd (Command.set k v)) s.files,
  index := ainsert k ⟨s.current_gen, c.length, encLen (Command.set k v)⟩ s.index,
  uncompacted_size := s.uncompacted_size + encLen (Command.set k v) }

theorem setState_inv {s : KvStore} (h : Inv s) (k v : BStr) {c : List Nat}
    (hfe : alookup s.current_gen s.files = some (false, c)) :
    Inv (setState s k v c) ∧
    ∀ k', stateVal (setState s k v c) k' = if k' = k then some v else stateVal s k' := by
  have hsetdec : parseCmd (encodeCmd (Command.set k v)) = some (Command.set k v, []) := by
    have := parseCmd_round (Command.set k v) []
    rwa [List.append_nil] at this
  have hdec1 : decodeOne (encodeCmd (Command.set k v)) = some (Command.set k v) :=
    decodeOne_encode (Command.set k v)
  have hmapfst : (setState s k v c).files.map (fun e => e.1)
      = s.files.map (fun e => e.1) := fappend_map_fst _ _ _
  have hlookup : ∀ g', alookup g' (setState s k v c).files
      = if s.current_gen = g'
        then (alookup g' s.files).map (fun fe => (fe.1, fe.2 ++ encodeCmd (Command.set k v)))
        else alookup g' s.files := fun g' => alookup_fappend _ _ _ _
  -- the new stateVal, pointwise
  have hsv : ∀ k', stateVal (setState s k v c) k'
      = if k' = k then some v else stateVal s k' := by
    intro k'
    by_cases hk : k' = k
    · rw [if_pos hk]
      subst hk
      unfold stateVal
      rw [show alookup k' (setState s k' v c).index
          = some ⟨s.current_gen, c.length, encLen (Command.set k' v)⟩ from
        alookup_ainsert_self k' _ s.index]
      try simp only []
      rw [hlookup s.current_gen, if_pos rfl, hfe]
      simp only [Option.map_some']
      rw [show ((c ++ encodeCmd (Command.set k' v)).drop c.length) =
        encodeCmd (Command.set k' v) from List.drop_left c _]
      rw [show (encodeCmd (Command.set k' v)).take (encLen (Command.set k' v))
          = encodeCmd (Command.set k' v) from by rw [encLen, List.take_length]]
      rw [hdec1]
    · rw [if_neg hk]
      unfold stateVal
      rw [show alookup k' (setState s k v c).index = alookup k' s.index from
        alookup_ainsert_ne _ s.index (fun he => hk he.symm)]
      cases hp : alookup k' s.index with
      | none => rfl
      | some p =>
        obtain ⟨fl, content, hfc, hbound, w, hdecw⟩ := h.idx_pos k' p hp
        by_cases hpg : p.gen = s.current_gen
        · rw [hpg] at hfc
          have hcontent : content = c := by
            rw [hfe] at hfc
            injection hfc with h1
            injection h1 with h2 h3
            exact h3.symm
          rw [hcontent] at hbound
          simp only []
          rw [hlookup p.gen, hpg, if_pos rfl, hfe]
          simp only [Option.map_some']
          try simp only []
          rw [slice_append_left hbound]
        · simp only []
          rw [hlookup p.gen, if_neg (fun he => hpg he.symm)]
  refine ⟨⟨?_, ?_, ?_, ?_, ?_, h.readers_nodup, ?_, ?_, h.compacted_nodup, ?_, ?_, ?_, ?_⟩, hsv⟩
  · exact pairwise_fst.mpr (hmapfst ▸ pairwise_fst.mp h.files_sorted)
  · refine ⟨c ++ encodeCmd (Command.set k v), ?_⟩
    rw [show (setState s k v c).current_gen = s.current_gen from rfl, hlookup s.current_gen,
      if_pos rfl, hfe]
    rfl
  · intro e he
    obtain ⟨e0, he0, hfst, _, _⟩ := fappend_mem e he
    rw [show (setState s k v c).current_gen = s.current_gen from rfl, hfst]
    exact h.gens_le e0 he0
  · intro e he
    obtain ⟨e0, he0, hfst, _, _⟩ := fappend_mem e he
    rw [show (setState s k v c).readers = s.readers from rfl, hfst]
    exact h.files_readers e0 he0
  · intro r hr
    obtain ⟨e0, he0, hfst⟩ := h.readers_files r hr
    have : e0.1 ∈ (setState s k v c).files.map (fun e => e.1) := by
      rw [hmapfst]
      exact List.mem_map.mpr ⟨e0, he0, rfl⟩
    obtain ⟨e1, he1, hee⟩ := List.mem_map.mp this
    exact ⟨e1, he1, hee.trans hfst⟩
  · intro e he
    obtain ⟨e0, he0, hfst, hflag, _⟩ := fappend_mem e he
    rw [show (setState s k v c).compacted_gen = s.compacted_gen from rfl, hfst, hflag]
    exact h.flags_match e0 he0
  · intro g hg
    obtain ⟨e0, he0, hfst⟩ := h.compacted_sub g hg
    have : e0.1 ∈ (setState s k v c).files.map (fun e => e.1) := by
      rw [hmapfst]
      exact List.mem_map.mpr ⟨e0, he0, rfl⟩
    obtain ⟨e1, he1, hee⟩ := List.mem_map.mp this
    exact ⟨e1, he1, hee.trans hfst⟩
  · exact nodup_ainsert _ _ _ h.idx_nodup
  · intro k' p hp
    by_cases hk : k' = k
    · subst hk
      have hp' : some (⟨s.current_gen, c.length, encLen (Command.set k' v)⟩ : CommandPos)
          = some p := (alookup_ainsert_self k' _ s.index).symm.trans hp
      injection hp' with hp'
      subst hp'
      refine ⟨false, c ++ encodeCmd (Command.set k' v), ?_, ?_, v, ?_⟩
      · rw [hlookup s.current_gen, if_pos rfl, hfe]
        rfl
      · simp [encLen]
      · rw [show ((c ++ encodeCmd (Command.set k' v)).drop c.length) =
          encodeCmd (Command.set k' v) from List.drop_left c _]
        rw [show (encodeCmd (Command.set k' v)).take (encLen (Command.set k' v))
            = encodeCmd (Command.set k' v) from by rw [encLen, List.take_length]]
        exact hdec1
    · have hp' : alookup k' s.index = some p :=
        (alookup_ainsert_ne _ s.index (fun he => hk he.symm)).symm.trans hp
      obtain ⟨fl, content, hfc, hbound, w, hdecw⟩ := h.idx_pos k' p hp'
      by_cases hpg : p.gen = s.current_gen
      · rw [hpg] at hfc
        have hfl : fl = false := by
          rw [hfe] at hfc
          injection hfc with h1
          injection h1 with h2 h3
          exact h2.symm
        have hcontent : content = c := by
          rw [hfe] at hfc
          injection hfc with h1
          injection h1 with h2 h3
          exact h3.symm
        rw [hcontent] at hbound
        rw [hcontent] at hdecw
        refine ⟨false, c ++ encodeCmd (Command.set k v), ?_, by simp; omega, w, ?_⟩
        · rw [hlookup p.gen, hpg, if_pos rfl, hfe]
          rfl
        · rw [slice_append_left hbound]
          exact hdecw
      · exact ⟨fl, content, by rw [hlookup p.gen, if_neg (fun he => hpg he.symm)]; exact hfc,
          hbound, w, hdecw⟩
  · intro e he
    obtain ⟨e0, he0, hfst, hflag, hcont⟩ := fappend_mem e he
    obtain ⟨chs, hcc, hok⟩ := h.files_chunks e0 he0
    rcases hcont with hsame | ⟨hg0, hext⟩
    · exact ⟨chs, hsame ▸ hcc, hok⟩
    · refine ⟨chs ++ [(encodeCmd (Command.set k v), Command.set k v)], ?_, ?_⟩
      · rw [hext, hcc, chunksBytes_append]
        simp [chunksBytes]
      · intro ch hch
        rcases List.mem_append.mp hch with h1 | h1
        · exact hok ch h1
        · rw [List.mem_singleton.mp h1]
          exact hsetdec
  · -- replay_eq
    obtain ⟨pre, hsplit, hpre⟩ := files_split h.files_sorted hfe h.gens_le
    have hfiles' : (setState s k v c).files
        = pre ++ [(s.current_gen, false, c ++ encodeCmd (Command.set k v))] := by
      rw [show (setState s k v c).files
          = fappend s.current_gen (encodeCmd (Command.set k v)) s.files from rfl, hsplit,
        fappend_append]
      rw [fappend_not_mem (fun e he => by have := hpre e he; omega)]
      rw [show fappend s.current_gen (encodeCmd (Command.set k v))
          [(s.current_gen, false, c)]
          = [(s.current_gen, false, c ++ encodeCmd (Command.set k v))] from by
        simp [fappend]]
    have hmemc : ((s.current_gen, false, c) : Nat × Bool × List Nat) ∈ s.files := by
      rw [hsplit]
      simp
    obtain ⟨chs, hcc, hok⟩ := h.files_chunks _ hmemc
    have hcc2 : c = chunksBytes chs := hcc
    have hok' : ChunksOk (chs ++ [(encodeCmd (Command.set k v), Command.set k v)]) := by
      intro ch hch
      rcases List.mem_append.mp hch with h1 | h1
      · exact hok ch h1
      · rw [List.mem_singleton.mp h1]
        exact hsetdec
    have hstep : replayFile (replayAll pre) (c ++ encodeCmd (Command.set k v))
        = ainsert k v (replayFile (replayAll pre) c) := by
      rw [show (c ++ encodeCmd (Command.set k v) : List Nat)
          = chunksBytes (chs ++ [(encodeCmd (Command.set k v), Command.set k v)]) from by
        rw [chunksBytes_append, ← hcc2]
        simp [chunksBytes]]
      rw [replayFile_chunks _ _ hok']
      rw [hcc2, replayFile_chunks _ _ hok]
      rw [List.map_append, List.foldl_append]
      rfl
    intro k'
    rw [hsv k']
    rw [hfiles', replayAll_append_single]
    simp only []
    rw [hstep]
    by_cases hk : k' = k
    · subst hk
      rw [if_pos rfl, alookup_ainsert_self]
    · rw [if_neg hk, alookup_ainsert_ne _ _ (fun he => hk he.symm)]
      have := h.replay_eq k'
      rw [hsplit, replayAll_append_single] at this
      simp only [] at this
      exact this

/-- The state after the append/erase/counter phase of `remove` (before
any compaction), when the current live file holds `c` and the removed
entry was `p`. -/
def removeState (s : KvStore) (k : BStr) (plen : Nat) : KvStore := { s with
  files := fappend s.current_gen (encodeCmd (Command.remove k)) s.files,
  index := aerase k s.index,
  uncompacted_size := s.uncompacted_size + plen }

theorem removeState_inv {s : KvStore} (h : Inv s) (k : BStr) (plen : Nat) {c : List Nat}
    (hfe : alookup s.current_gen s.files = some (false, c)) :
    Inv (removeState s k plen) ∧
    ∀ k', stateVal (removeState s k plen) k' = if k' = k then none else stateVal s k' := by
  have hremdec : parseCmd (encodeCmd (Command.remove k)) = some (Command.remove k, []) := by
    have := parseCmd_round (Command.remove k) []
    rwa [List.append_nil] at this
  have hmapfst : (removeState s k plen).files.map (fun e => e.1)
      = s.files.map (fun e => e.1) := fappend_map_fst _ _ _
  have hlookup : ∀ g', alookup g' (removeState s k plen).files
      = if s.current_gen = g'
        then (alookup g' s.files).map (fun fe => (fe.1, fe.2 ++ encodeCmd (Command.remove k)))
        else alookup g' s.files := fun g' => alookup_fappend _ _ _ _
  have hsv : ∀ k', stateVal (removeState s k plen) k'
      = if k' = k then none else stateVal s k' := by
    intro k'
    by_cases hk : k' = k
    · rw [if_pos hk]
      subst hk
      unfold stateVal
      rw [show alookup k' (removeState s k' plen).index = none from
        alookup_aerase_self k' s.index]
    · rw [if_neg hk]
      unfold stateVal
      rw [show alookup k' (removeState s k plen).index = alookup k' s.index from
        alookup_aerase_ne s.index (fun he => hk he.symm)]
      cases hp : alookup k' s.index with
      | none => rfl
      | some p =>
        obtain ⟨fl, content, hfc, hbound, w, hdecw⟩ := h.idx_pos k' p hp
        by_cases hpg : p.gen = s.current_gen
        · rw [hpg] at hfc
          have hcontent : content = c := by
            rw [hfe] at hfc
            injection hfc with h1
            injection h1 with h2 h3
            exact h3.symm
          rw [hcontent] at hbound
          simp only []
          rw [hlookup p.gen, hpg, if_pos rfl, hfe]
          simp only [Option.map_some']
          try simp only []
          rw [slice_append_left hbound]
        · simp only []
          rw [hlookup p.gen, if_neg (fun he => hpg he.symm)]
  refine ⟨⟨?_, ?_, ?_, ?_, ?_, h.readers_nodup, ?_, ?_, h.compacted_nodup, ?_, ?_, ?_, ?_⟩, hsv⟩
  · exact pairwise_fst.mpr (hmapfst ▸ pairwise_fst.mp h.files_sorted)
  · refine ⟨c ++ encodeCmd (Command.remove k), ?_⟩
    rw [show (removeState s k plen).current_gen = s.current_gen from rfl, hlookup s.current_gen,
      if_pos rfl, hfe]
    rfl
  · intro e he
    obtain ⟨e0, he0, hfst, _, _⟩ := fappend_mem e he
    rw [show (removeState s k plen).current_gen = s.current_gen from rfl, hfst]
    exact h.gens_le e0 he0
  · intro e he
    obtain ⟨e0, he0, hfst, _, _⟩ := fappend_mem e he
    rw [show (removeState s k plen).readers = s.readers from rfl, hfst]
    exact h.files_readers e0 he0
  · intro r hr
    obtain ⟨e0, he0, hfst⟩ := h.readers_files r hr
    have : e0.1 ∈ (removeState s k plen).files.map (fun e => e.1) := by
      rw [hmapfst]
      exact List.mem_map.mpr ⟨e0, he0, rfl⟩
    obtain ⟨e1, he1, hee⟩ := List.mem_map.mp this
    exact ⟨e1, he1, hee.trans hfst⟩
  · intro e he
    obtain ⟨e0, he0, hfst, hflag, _⟩ := fappend_mem e he
    rw [show (removeState s k plen).compacted_gen = s.compacted_gen from rfl, hfst, hflag]
    exact h.flags_match e0 he0
  · intro g hg
    obtain ⟨e0, he0, hfst⟩ := h.compacted_sub g hg
    have : e0.1 ∈ (removeState s k plen).files.map (fun e => e.1) := by
      rw [hmapfst]
      exact List.mem_map.mpr ⟨e0, he0, rfl⟩
    obtain ⟨e1, he1, hee⟩ := List.mem_map.mp this
    exact ⟨e1, he1, hee.trans hfst⟩
  · exact nodup_aerase _ _ h.idx_nodup
  · intro k' p hp
    by_cases hk : k' = k
    · rw [hk] at hp
      rw [show alookup k (removeState s k plen).index = none from
        alookup_aerase_self k s.index] at hp
      cases hp
    · have hp' : alookup k' s.index = some p :=
        (alookup_aerase_ne s.index (fun he => hk he.symm)).symm.trans hp
      obtain ⟨fl, content, hfc, hbound, w, hdecw⟩ := h.idx_pos k' p hp'
      by_cases hpg : p.gen = s.current_gen
      · rw [hpg] at hfc
        have hfl : fl = false := by
          rw [hfe] at hfc
          injection hfc with h1
          injection h1 with h2 h3
          exact h2.symm
        have hcontent : content = c := by
          rw [hfe] at hfc
          injection hfc with h1
          injection h1 with h2 h3
          exact h3.symm
        rw [hcontent] at hbound
        rw [hcontent] at hdecw
        refine ⟨false, c ++ encodeCmd (Command.remove k), ?_, by simp; omega, w, ?_⟩
        · rw [hlookup p.gen, hpg, if_pos rfl, hfe]
          rfl
        · rw [slice_append_left hbound]
          exact hdecw
      · exact ⟨fl, content, by rw [hlookup p.gen, if_neg (fun he => hpg he.symm)]; exact hfc,
          hbound, w, hdecw⟩
  · intro e he
    obtain ⟨e0, he0, hfst, hflag, hcont⟩ := fappend_mem e he
    obtain ⟨chs, hcc, hok⟩ := h.files_chunks e0 he0
    rcases hcont with hsame | ⟨hg0, hext⟩
    · exact ⟨chs, hsame ▸ hcc, hok⟩
    · refine ⟨chs ++ [(encodeCmd (Command.remove k), Command.remove k)], ?_, ?_⟩
      · rw [hext, hcc, chunksBytes_append]
        simp [chunksBytes]
      · intro ch hch
        rcases List.mem_append.mp hch with h1 | h1
        · exact hok ch h1
        · rw [List.mem_singleton.mp h1]
          exact hremdec
  · obtain ⟨pre, hsplit, hpre⟩ := files_split h.files_sorted hfe h.gens_le
    have hfiles' : (removeState s k plen).files
        = pre ++ [(s.current_gen, false, c ++ encodeCmd (Command.remove k))] := by
      rw [show (removeState s k plen).files
          = fappend s.current_gen (encodeCmd (Command.remove k)) s.files from rfl, hsplit,
        fappend_append]
      rw [fappend_not_mem (fun e he => by have := hpre e he; omega)]
      rw [show fappend s.current_gen (encodeCmd (Command.remove k))
          [(s.current_gen, false, c)]
          = [(s.current_gen, false, c ++ encodeCmd (Command.remove k))] from by
        simp [fappend]]
    have hmemc : ((s.current_gen, false, c) : Nat × Bool × List Nat) ∈ s.files := by
      rw [hsplit]
      simp
    obtain ⟨chs, hcc, hok⟩ := h.files_chunks _ hmemc
    have hcc2 : c = chunksBytes chs := hcc
    have hok' : ChunksOk (chs ++ [(encodeCmd (Command.remove k), Command.remove k)]) := by
      intro ch hch
      rcases List.mem_append.mp hch with h1 | h1
      · exact hok ch h1
      · rw [List.mem_singleton.mp h1]
        exact hremdec
    have hstep : replayFile (replayAll pre) (c ++ encodeCmd (Command.remove k))
        = aerase k (replayFile (replayAll pre) c) := by
      rw [show (c ++ encodeCmd (Command.remove k) : List Nat)
          = chunksBytes (chs ++ [(encodeCmd (Command.remove k), Command.remove k)]) from by
        rw [chunksBytes_append, ← hcc2]
        simp [chunksBytes]]
      rw [replayFile_chunks _ _ hok']
      rw [hcc2, replayFile_chunks _ _ hok]
      rw [List.map_append, List.foldl_append]
      rfl
    intro k'
    rw [hsv k']
    rw [hfiles', replayAll_append_single]
    simp only []
    rw [hstep]
    rw [alookup_aerase]
    by_cases hk : k' = k
    · rw [if_pos hk, if_pos (hk ▸ rfl)]
    · rw [if_neg hk, if_neg (fun he : k = k' => hk he.symm)]
      have := h.replay_eq k'
      rw [hsplit, replayAll_append_single] at this
      simp only [] at this
      exact this

theorem decodeOne_iff {s : List Nat} {c : Command} :
    decodeOne s = some c ↔ parseCmd s = some (c, []) := by
  unfold decodeOne
  cases hp : parseCmd s with
  | none => simp
  | some cr =>
    obtain ⟨c1, r1⟩ := cr
    cases r1 with
    | nil =>
      simp only []
      constructor
      · intro h1
        injection h1 with h1
        rw [h1]
      · intro h1
        injection h1 with h1
        injection h1 with h2 h3
        rw [h2]
    | cons b t =>
      simp only []
      constructor
      · intro h1; cases h1
      · intro h1
        injection h1 with h1
        injection h1 with h2 h3
        cases h3

theorem alookup_eq_of_mem {α β : Type} [DecidableEq α] {l : List (α × β)}
    (hnd : (l.map (fun e => e.1)).Nodup) {k : α} {v : β} (hm : (k, v) ∈ l) :
    alookup k l = some v := by
  induction l with
  | nil => cases hm
  | cons e t ih =>
    simp only [List.map_cons, List.nodup_cons] at hnd
    rcases List.mem_cons.mp hm with h1 | h1
    · rw [← h1]
      simp [alookup]
    · have hek : ¬ e.1 = k := by
        intro he
        exact hnd.1 (he ▸ List.mem_map.mpr ⟨(k, v), h1, rfl⟩)
      rw [show alookup k (e :: t) = alookup k t from by simp [alookup, hek]]
      exact ih hnd.2 h1

theorem slice_length {content : List Nat} {p l : Nat} (h : p + l ≤ content.length) :
    ((content.drop p).take l).length = l := by
  simp [List.length_take, List.length_drop]
  omega

/-- The record-copy loop of `compact`, fully characterized: it succeeds,
keeps the reader generations, keeps the index keys in order, produces a
chunked compaction file whose replay writes exactly the indexed values,
and repoints every entry at its copied record. -/
theorem copyLoop_spec (cgen : Nat) (vmap : BStr → Option BStr) (fs : Files) :
    ∀ (idx : Index) (rs : Readers) (cpos : Nat),
    (idx.map (fun e => e.1)).Nodup →
    (∀ e ∈ idx, ∃ cur, alookup e.2.gen rs = some cur) →
    (∀ e ∈ idx, ∃ fl content, alookup e.2.gen fs = some (fl, content) ∧
        e.2.pos + e.2.len ≤ content.length ∧
        ∃ v, decodeOne ((content.drop e.2.pos).take e.2.len) = some (Command.set e.1 v) ∧
          vmap e.1 = some v) →
    ∃ idx1 comp rs1,
      copyLoop cgen idx fs rs cpos = some (idx1, comp, rs1) ∧
      rs1.map (fun r => r.1) = rs.map (fun r => r.1) ∧
      idx1.map (fun e => e.1) = idx.map (fun e => e.1) ∧
      (∃ chs, comp = chunksBytes chs ∧ ChunksOk chs ∧
        (∀ m k, alookup k ((chs.map (fun ch => ch.2)).foldl applyCmd m)
          = if (alookup k idx).isSome then vmap k else alookup k m)) ∧
      (∀ k p1, alookup k idx1 = some p1 → p1.gen = cgen ∧ cpos ≤ p1.pos ∧
        p1.pos - cpos + p1.len ≤ comp.length ∧
        ∃ v, vmap k = some v ∧
          decodeOne ((comp.drop (p1.pos - cpos)).take p1.len) = some (Command.set k v)) := by
  intro idx
  induction idx with
  | nil =>
    intro rs cpos _ _ _
    refine ⟨[], [], rs, rfl, rfl, rfl, ⟨[], rfl, ?_, ?_⟩, ?_⟩
    · intro ch hch
      cases hch
    · intro m k
      simp [alookup]
    · intro k p1 hp1
      simp [alookup] at hp1
  | cons e t ih =>
    obtain ⟨k0, p0⟩ := e
    intro rs cpos hnd hrd hfl
    obtain ⟨cur0, hcur0⟩ := hrd (k0, p0) (by simp)
    obtain ⟨fl0, content0, hfs0, hbound0, v0, hdec0, hv0⟩ := hfl (k0, p0) (by simp)
    simp only [List.map_cons, List.nodup_cons] at hnd
    have hrs1keys : (rsetCursor p0.gen (p0.pos + p0.len) rs).map (fun r => r.1)
        = rs.map (fun r => r.1) := rsetCursor_map_fst _ _ _
    have hrd1 : ∀ e ∈ t, ∃ cur,
        alookup e.2.gen (rsetCursor p0.gen (p0.pos + p0.len) rs) = some cur := by
      intro e he
      obtain ⟨cur, hcur⟩ := hrd e (by simp [he])
      rw [alookup_rsetCursor]
      by_cases hg : p0.gen = e.2.gen
      · rw [if_pos hg, hcur]
        exact ⟨p0.pos + p0.len, rfl⟩
      · rw [if_neg hg]
        exact ⟨cur, hcur⟩
    obtain ⟨idx1, comp1, rs2, hloop, hkeys2, hkeysi, ⟨chs, hcomp, hok, hfold⟩, hpos⟩ :=
      ih (rsetCursor p0.gen (p0.pos + p0.len) rs) (cpos + p0.len) hnd.2 hrd1
        (fun e he => hfl e (by simp [he]))
    have hbyteslen : ((content0.drop p0.pos).take p0.len).length = p0.len :=
      slice_length hbound0
    refine ⟨(k0, ⟨cgen, cpos, p0.len⟩) :: idx1,
      (content0.drop p0.pos).take p0.len ++ comp1, rs2, ?_, ?_, ?_, ?_, ?_⟩
    · simp only [copyLoop]
      rw [hcur0]
      simp only []
      rw [hfs0]
      simp only []
      rw [hloop]
    · rw [hkeys2, hrs1keys]
    · simp only [List.map_cons]
      rw [hkeysi]
    · refine ⟨((content0.drop p0.pos).take p0.len, Command.set k0 v0) :: chs, ?_, ?_, ?_⟩
      · rw [show chunksBytes (((content0.drop p0.pos).take p0.len, Command.set k0 v0) :: chs)
            = (content0.drop p0.pos).take p0.len ++ chunksBytes chs from rfl, hcomp]
      · intro ch hch
        rcases List.mem_cons.mp hch with h1 | h1
        · rw [h1]
          exact decodeOne_iff.mp hdec0
        · exact hok ch h1
      · intro m k
        rw [show (((content0.drop p0.pos).take p0.len, Command.set k0 v0) :: chs).map
              (fun ch => ch.2) = Command.set k0 v0 :: chs.map (fun ch => ch.2) from rfl]
        rw [List.foldl_cons]
        rw [hfold (applyCmd m (Command.set k0 v0)) k]
        by_cases hk : k = k0
        · subst hk
          have hnone : alookup k t = none := by
            cases hl : alookup k t with
            | none => rfl
            | some p =>
              exfalso
              apply hnd.1
              have : (alookup k t).isSome = true := by rw [hl]; rfl
              exact (alookup_isSome k t).mp this
          rw [hnone]
          rw [show alookup k ((k, p0) :: t) = some p0 from by simp [alookup]]
          simp only [Option.isSome_none, Bool.false_eq_true, if_false, Option.isSome_some,
            if_true]
          rw [show applyCmd m (Command.set k v0) = ainsert k v0 m from rfl,
            alookup_ainsert_self]
          exact hv0.symm
        · rw [show alookup k ((k0, p0) :: t) = alookup k t from by
            simp only [alookup]
            rw [if_neg (fun he : k0 = k => hk he.symm)]]
          rw [show applyCmd m (Command.set k0 v0) = ainsert k0 v0 m from rfl,
            alookup_ainsert_ne _ _ (fun he => hk he.symm)]
    · intro k p1 hp1
      by_cases hk : k = k0
      · subst hk
        rw [show alookup k ((k, (⟨cgen, cpos, p0.len⟩ : CommandPos)) :: idx1)
            = some ⟨cgen, cpos, p0.len⟩ from by simp [alookup]] at hp1
        injection hp1 with hp1
        subst hp1
        refine ⟨rfl, le_rfl, ?_, v0, hv0, ?_⟩
        · show cpos - cpos + p0.len ≤ ((content0.drop p0.pos).take p0.len ++ comp1).length
          rw [List.length_append, hbyteslen]
          omega
        · show decodeOne ((((content0.drop p0.pos).take p0.len ++ comp1).drop
              (cpos - cpos)).take p0.len) = some (Command.set k v0)
          rw [Nat.sub_self, List.drop_zero]
          rw [List.take_append_of_le_length (by rw [hbyteslen])]
          rw [List.take_take, Nat.min_self]
          exact hdec0
      · rw [show alookup k ((k0, (⟨cgen, cpos, p0.len⟩ : CommandPos)) :: idx1)
            = alookup k idx1 from by
          simp only [alookup]
          rw [if_neg (fun he : k0 = k => hk he.symm)]] at hp1
        obtain ⟨hgen, hge, hbnd, v, hv, hdec⟩ := hpos k p1 hp1
        refine ⟨hgen, by omega, by rw [List.length_append, hbyteslen]; omega, v, hv, ?_⟩
        rw [show p1.pos - cpos
            = ((content0.drop p0.pos).take p0.len).length + (p1.pos - (cpos + p0.len)) from by
          rw [hbyteslen]; omega]
        rw [List.drop_append]
        exact hdec

/-- The stale-deletion loop of `compact`, fully characterized. -/
theorem deleteLoop_spec : ∀ (stale : List Nat) (cg : List Nat) (rs : Readers) (fs : Files),
    stale.Nodup → cg.Nodup →
    (∀ g ∈ stale, ∃ cur, alookup g rs = some cur) →
    (∀ g ∈ stale, ∃ fl content, alookup g fs = some (fl, content) ∧ (fl = true ↔ g ∈ cg)) →
    ∃ cg1 rs1 fs1, deleteLoop stale cg rs fs = some (cg1, rs1, fs1) ∧
      fs1 = stale.foldl (fun fs g => aerase g fs) fs ∧
      rs1 = stale.foldl (fun rs g => aerase g rs) rs ∧
      (∀ a, a ∈ cg1 ↔ (a ∈ cg ∧ ¬ a ∈ stale)) ∧
      cg1.Nodup := by
  intro stale
  induction stale with
  | nil =>
    intro cg rs fs _ hcg _ _
    exact ⟨cg, rs, fs, rfl, rfl, rfl, by simp, hcg⟩
  | cons g t ih =>
    intro cg rs fs hnd hcg hrd hfl
    simp only [List.nodup_cons] at hnd
    obtain ⟨cur, hcur⟩ := hrd g (by simp)
    obtain ⟨fl, content, hfg, hflg⟩ := hfl g (by simp)
    have hcont : cg.contains g = fl := by
      cases hfg' : fl with
      | true =>
        rw [hfg'] at hflg
        exact List.elem_eq_true_of_mem (hflg.mp rfl)
      | false =>
        rw [hfg'] at hflg
        cases hc : cg.contains g with
        | false => rfl
        | true =>
          exfalso
          have hm : g ∈ cg := List.mem_of_elem_eq_true hc
          have := hflg.mpr hm
          cases this
    have hunfold : deleteLoop (g :: t) cg rs fs
        = deleteLoop t (if fl = true then cg.erase g else cg) (aerase g rs) (aerase g fs) := by
      simp only [deleteLoop]
      rw [hcur]
      simp only []
      rw [hfg]
      simp only []
      rw [hcont]
      rw [if_pos rfl]
    have hcg1mem : ∀ a, a ∈ (if fl = true then cg.erase g else cg) ↔ (a ∈ cg ∧ a ≠ g) := by
      intro a
      cases hfg' : fl with
      | true =>
        rw [if_pos rfl]
        rw [hcg.mem_erase_iff]
        constructor
        · intro hh; exact ⟨hh.2, hh.1⟩
        · intro hh; exact ⟨hh.2, hh.1⟩
      | false =>
        simp only [Bool.false_eq_true, if_false]
        rw [hfg'] at hflg
        constructor
        · intro hh
          refine ⟨hh, fun he => ?_⟩
          have := hflg.mpr (he ▸ hh)
          cases this
        · intro hh; exact hh.1
    have hcg1nd : (if fl = true then cg.erase g else cg).Nodup := by
      cases fl with
      | true => rw [if_pos rfl]; exact hcg.erase g
      | false => simpa using hcg
    obtain ⟨cgf, rsf, fsf, hrun, hfs, hrs, hmem, hndf⟩ :=
      ih (if fl = true then cg.erase g else cg) (aerase g rs) (aerase g fs) hnd.2 hcg1nd
        (fun g' hg' => by
          rw [alookup_aerase_ne _ (fun he : g = g' => hnd.1 (he ▸ hg'))]
          exact hrd g' (by simp [hg']))
        (fun g' hg' => by
          obtain ⟨fl', content', hfg', hflg'⟩ := hfl g' (by simp [hg'])
          refine ⟨fl', content', ?_, ?_⟩
          · rw [alookup_aerase_ne _ (fun he : g = g' => hnd.1 (he ▸ hg'))]
            exact hfg'
          · rw [hflg', hcg1mem g']
            constructor
            · intro hh; exact ⟨hh, fun he => hnd.1 (he ▸ hg')⟩
            · intro hh; exact hh.1)
    refine ⟨cgf, rsf, fsf, ?_, ?_, ?_, ?_, hndf⟩
    · rw [hunfold]
      exact hrun
    · rw [hfs]
      rfl
    · rw [hrs]
      rfl
    · intro a
      rw [hmem a, hcg1mem a]
      simp only [List.mem_cons]
      constructor
      · intro hh
        exact ⟨hh.1.1, fun hor => by
          rcases hor with h1 | h1
          · exact hh.1.2 h1
          · exact hh.2 h1⟩
      · intro hh
        exact ⟨⟨hh.1, fun he => hh.2 (Or.inl he)⟩, fun ht => hh.2 (Or.inr ht)⟩

theorem alookup_append {α β : Type} [DecidableEq α] (k : α) (l1 l2 : List (α × β)) :
    alookup k (l1 ++ l2) = match alookup k l1 with
      | some v => some v
      | none => alookup k l2 := by
  induction l1 with
  | nil => simp [alookup]
  | cons e t ih =>
    by_cases he : e.1 = k
    · simp [alookup, he]
    · simp only [List.cons_append, alookup, if_neg he]
      exact ih

theorem aerase_filter {α β : Type} [DecidableEq α] (k : α) (l : List (α × β)) :
    aerase k l = l.filter (fun e => decide (¬ e.1 = k)) := by
  induction l with
  | nil => rfl
  | cons e t ih =>
    by_cases he : e.1 = k
    · rw [show aerase k (e :: t) = aerase k t from by simp [aerase, he]]
      rw [show List.filter (fun e => decide (¬ e.1 = k)) (e :: t)
          = List.filter (fun e => decide (¬ e.1 = k)) t from by
        rw [List.filter_cons]
        simp [he]]
      exact ih
    · rw [show aerase k (e :: t) = e :: aerase k t from by simp [aerase, he]]
      rw [show List.filter (fun e => decide (¬ e.1 = k)) (e :: t)
          = e :: List.filter (fun e => decide (¬ e.1 = k)) t from by
        rw [List.filter_cons]
        simp [he]]
      rw [ih]

theorem foldl_aerase_filter {α β : Type} [DecidableEq α] :
    ∀ (gs : List α) (l : List (α × β)),
    gs.foldl (fun l g => aerase g l) l = l.filter (fun e => decide (¬ e.1 ∈ gs)) := by
  intro gs
  induction gs with
  | nil =>
    intro l
    simp only [List.foldl_nil]
    induction l with
    | nil => rfl
    | cons e t ih =>
      rw [List.filter_cons]
      rw [show (decide (¬ e.1 ∈ ([] : List α))) = true from by simp]
      rw [if_pos rfl]
      rw [← ih]
  | cons g gs ih =>
    intro l
    simp only [List.foldl_cons]
    rw [ih (aerase g l), aerase_filter, List.filter_filter]
    apply List.filter_congr
    intro e _
    by_cases h1 : e.1 = g <;> by_cases h2 : e.1 ∈ gs <;> simp [h1, h2]

theorem alookup_filter_not_mem {α β : Type} [DecidableEq α] {g : α} {gs : List α}
    (l : List (α × β)) (hg : ¬ g ∈ gs) :
    alookup g (l.filter (fun e => decide (¬ e.1 ∈ gs))) = alookup g l := by
  induction l with
  | nil => rfl
  | cons e t ih =>
    rw [List.filter_cons]
    by_cases he : e.1 ∈ gs
    · rw [show (decide (¬ e.1 ∈ gs)) = false from by simp [he]]
      simp only [Bool.false_eq_true, if_false]
      rw [ih]
      rw [show alookup g (e :: t) = alookup g t from by
        simp only [alookup]
        rw [if_neg (fun hee : e.1 = g => hg (hee ▸ he))]]
    · rw [show (decide (¬ e.1 ∈ gs)) = true from by simp [he]]
      simp only [if_true]
      by_cases hee : e.1 = g
      · simp [alookup, hee]
      · simp only [alookup, if_neg hee]
        exact ih

theorem nodup_fst_filter {α β : Type} [DecidableEq α] (p : α × β → Bool) (l : List (α × β))
    (h : (l.map (fun e => e.1)).Nodup) : ((l.filter p).map (fun e => e.1)).Nodup :=
  List.Nodup.sublist (List.Sublist.map (fun e => e.1) (List.filter_sublist l)) h

theorem replayFile_nil (m : List (BStr × BStr)) : replayFile m [] = m := rfl

theorem mem_map_fst_ainsert {α β : Type} [DecidableEq α] (k a : α) (v : β) (l : List (α × β)) :
    a ∈ (ainsert k v l).map (fun e => e.1) ↔ (a = k ∨ a ∈ l.map (fun e => e.1)) := by
  simp only [ainsert, List.map_cons, List.mem_cons]
  rw [mem_map_fst_aerase]
  constructor
  · rintro (h1 | h1)
    · exact Or.inl h1
    · exact Or.inr h1.1
  · rintro (h1 | h1)
    · exact Or.inl h1
    · by_cases hak : a = k
      · exact Or.inl hak
      · exact Or.inr ⟨h1, hak⟩

theorem filter_eq_nil_of {α : Type} (p : α → Bool) (l : List α)
    (h : ∀ a ∈ l, p a = false) : l.filter p = [] := by
  induction l with
  | nil => rfl
  | cons e t ih =>
    rw [List.filter_cons, h e (by simp), if_neg (by simp)]
    exact ih (fun a ha => h a (by simp [ha]))

theorem alookup_mem {α β : Type} [DecidableEq α] {l : List (α × β)} {k : α} {v : β}
    (h : alookup k l = some v) : (k, v) ∈ l := by
  induction l with
  | nil => cases h
  | cons e t ih =>
    by_cases he : e.1 = k
    · rw [show alookup k (e :: t) = some e.2 from by simp [alookup, he]] at h
      injection h with h
      rw [← h, ← he, Prod.mk.eta]
      simp
    · rw [show alookup k (e :: t) = alookup k t from by simp [alookup, he]] at h
      exact List.mem_cons.mpr (Or.inr (ih h))

theorem files_gens_nodup {s : KvStore} (h : Inv s) : (s.files.map (fun e => e.1)).Nodup := by
  have := pairwise_fst.mp h.files_sorted
  exact this.imp Nat.ne_of_lt

/-- Under the invariant, `compact` succeeds, preserves the invariant and
every visible value, keeps the index keys, and resets the counter. -/
theorem compact_spec {s : KvStore} (h : Inv s) :
    (s.compact).1 = Res.ok () ∧ Inv (s.compact).2 ∧
    (∀ k, stateVal (s.compact).2 k = stateVal s k) ∧
    (∀ k, (alookup k (s.compact).2.index).isSome = (alookup k s.index).isSome) ∧
    (s.compact).2.uncompacted_size = 0 ∧
    (s.compact).2.current_gen = s.current_gen + 2 := by
  obtain ⟨ccur, hcur⟩ := h.cur_live
  -- entry facts in the old state
  have hentry : ∀ e ∈ s.index, ∃ fl content, alookup e.2.gen s.files = some (fl, content) ∧
      e.2.pos + e.2.len ≤ content.length ∧
      ∃ v, decodeOne ((content.drop e.2.pos).take e.2.len) = some (Command.set e.1 v) ∧
        stateVal s e.1 = some v := by
    intro e he
    have hm : alookup e.1 s.index = some e.2 :=
      alookup_eq_of_mem h.idx_nodup (by rw [Prod.mk.eta]; exact he)
    obtain ⟨fl, content, hfc, hb, v, hd⟩ := h.idx_pos e.1 e.2 hm
    refine ⟨fl, content, hfc, hb, v, hd, ?_⟩
    unfold stateVal
    rw [hm]
    simp only []
    rw [hfc]
    simp only []
    rw [hd]
  have hgenmem : ∀ e ∈ s.index, e.2.gen ∈ s.files.map (fun e => e.1) := by
    intro e he
    obtain ⟨fl, content, hfc, _⟩ := hentry e he
    exact (alookup_isSome _ _).mp (by rw [hfc]; rfl)
  have hgenle : ∀ e ∈ s.index, e.2.gen ≤ s.current_gen := by
    intro e he
    obtain ⟨e0, he0, hee⟩ := List.mem_map.mp (hgenmem e he)
    exact hee ▸ h.gens_le e0 he0
  -- lookups in the enlarged file list
  have hfs1 : ∀ g, alookup g ((s.files ++ [(s.current_gen + 1, true, ([] : List Nat))])
        ++ [(s.current_gen + 2, false, ([] : List Nat))])
      = match alookup g s.files with
        | some fe => some fe
        | none => if s.current_gen + 1 = g then some (true, []) else
            if s.current_gen + 2 = g then some (false, []) else none := by
    intro g
    rw [alookup_append, alookup_append]
    cases alookup g s.files with
    | some fe => rfl
    | none =>
      simp only []
      by_cases h1 : s.current_gen + 1 = g
      · rw [show alookup g [((s.current_gen + 1 : Nat), (true : Bool), ([] : List Nat))]
            = some (true, []) from by simp [alookup, h1]]
        rw [if_pos h1]
      · rw [show alookup g [((s.current_gen + 1 : Nat), (true : Bool), ([] : List Nat))]
            = none from by simp [alookup, h1]]
        rw [if_neg h1]
        simp only []
        by_cases h2 : s.current_gen + 2 = g
        · rw [show alookup g [((s.current_gen + 2 : Nat), (false : Bool), ([] : List Nat))]
              = some (false, []) from by simp [alookup, h2]]
          rw [if_pos h2]
        · rw [show alookup g [((s.current_gen + 2 : Nat), (false : Bool), ([] : List Nat))]
              = none from by simp [alookup, h2]]
          rw [if_neg h2]
  -- copyLoop hypotheses
  have hrdN : ∀ e ∈ s.index, ∃ cur,
      alookup e.2.gen (ainsert (s.current_gen + 2) 0 s.readers) = some cur := by
    intro e he
    obtain ⟨e0, he0, hee⟩ := List.mem_map.mp (hgenmem e he)
    obtain ⟨cur, hcur'⟩ := h.files_readers e0 he0
    rw [hee] at hcur'
    rw [alookup_ainsert_ne 0 s.readers (by have := hgenle e he; omega)]
    exact ⟨cur, hcur'⟩
  have hflN : ∀ e ∈ s.index, ∃ fl content,
      alookup e.2.gen ((s.files ++ [(s.current_gen + 1, true, ([] : List Nat))])
        ++ [(s.current_gen + 2, false, ([] : List Nat))]) = some (fl, content) ∧
      e.2.pos + e.2.len ≤ content.length ∧
      ∃ v, decodeOne ((content.drop e.2.pos).take e.2.len) = some (Command.set e.1 v) ∧
        stateVal s e.1 = some v := by
    intro e he
    obtain ⟨fl, content, hfc, hb, v, hd, hv⟩ := hentry e he
    refine ⟨fl, content, ?_, hb, v, hd, hv⟩
    rw [hfs1, hfc]
  obtain ⟨idx1, comp, rs2, hloop, hkeys2, hkeysi, ⟨chs, hcomp, hok, hfold⟩, hpos⟩ :=
    copyLoop_spec (s.current_gen + 1) (stateVal s)
      ((s.files ++ [(s.current_gen + 1, true, ([] : List Nat))])
        ++ [(s.current_gen + 2, false, ([] : List Nat))])
      s.index (ainsert (s.current_gen + 2) 0 s.readers) 0 h.idx_nodup hrdN hflN
  -- reader-pool keys after the copy loop
  have hrs2keys : rs2.map (fun r => r.1)
      = (ainsert (s.current_gen + 2) 0 s.readers).map (fun r => r.1) := hkeys2
  have hrs3keysnd : ((ainsert (s.current_gen + 1) 0 rs2).map (fun r => r.1)).Nodup := by
    apply nodup_ainsert
    rw [hrs2keys]
    exact nodup_ainsert _ _ _ h.readers_nodup
  have hmem_rs3 : ∀ a, a ∈ ((ainsert (s.current_gen + 1) 0 rs2).map (fun r => r.1))
      ↔ (a = s.current_gen + 1 ∨ a = s.current_gen + 2
          ∨ a ∈ s.readers.map (fun r => r.1)) := by
    intro a
    rw [mem_map_fst_ainsert, hrs2keys, mem_map_fst_ainsert]
  -- the stale generations
  have hstale_mem : ∀ g, g ∈ (((ainsert (s.current_gen + 1) 0 rs2).map (fun r => r.1)).filter
      (fun g => decide (g < s.current_gen + 1)))
      ↔ (g ∈ s.readers.map (fun r => r.1) ∧ g < s.current_gen + 1) := by
    intro g
    rw [List.mem_filter]
    constructor
    · intro hh
      have hlt : g < s.current_gen + 1 := by simpa using hh.2
      rcases (hmem_rs3 g).mp hh.1 with h1 | h1 | h1
      · omega
      · omega
      · exact ⟨h1, hlt⟩
    · intro hh
      exact ⟨(hmem_rs3 g).mpr (Or.inr (Or.inr hh.1)), by simpa using hh.2⟩
  have hstale_nd : (((ainsert (s.current_gen + 1) 0 rs2).map (fun r => r.1)).filter
      (fun g => decide (g < s.current_gen + 1))).Nodup :=
    hrs3keysnd.filter _
  have hCnotin : ¬ s.current_gen + 1 ∈ s.compacted_gen := by
    intro hc
    obtain ⟨e0, he0, hee⟩ := h.compacted_sub _ hc
    have := h.gens_le e0 he0
    omega
  -- deleteLoop hypotheses
  have hrd_stale : ∀ g ∈ (((ainsert (s.current_gen + 1) 0 rs2).map (fun r => r.1)).filter
      (fun g => decide (g < s.current_gen + 1))), ∃ cur,
      alookup g (ainsert (s.current_gen + 1) 0 rs2) = some cur := by
    intro g hg
    have : g ∈ (ainsert (s.current_gen + 1) 0 rs2).map (fun r => r.1) :=
      (List.mem_filter.mp hg).1
    rw [← alookup_isSome] at this
    cases hl : alookup g (ainsert (s.current_gen + 1) 0 rs2) with
    | none => rw [hl] at this; cases this
    | some cur => exact ⟨cur, rfl⟩
  have hfl_stale : ∀ g ∈ (((ainsert (s.current_gen + 1) 0 rs2).map (fun r => r.1)).filter
      (fun g => decide (g < s.current_gen + 1))), ∃ fl content,
      alookup g (fappend (s.current_gen + 1) comp
        ((s.files ++ [(s.current_gen + 1, true, ([] : List Nat))])
          ++ [(s.current_gen + 2, false, ([] : List Nat))])) = some (fl, content) ∧
      (fl = true ↔ g ∈ (s.current_gen + 1) :: s.compacted_gen) := by
    intro g hg
    obtain ⟨hgr, hglt⟩ := (hstale_mem g).mp hg
    rw [← alookup_isSome] at hgr
    cases hl : alookup g s.readers with
    | none => rw [hl] at hgr; cases hgr
    | some cur =>
      obtain ⟨e0, he0, hee⟩ := h.readers_files (g, cur) (alookup_mem hl)
      have hee' : e0.1 = g := hee
      have hfl0 : alookup g s.files = some e0.2 := by
        rw [← hee']
        exact alookup_eq_of_mem (files_gens_nodup h) (by rw [Prod.mk.eta]; exact he0)
      refine ⟨e0.2.1, e0.2.2, ?_, ?_⟩
      · rw [alookup_fappend, if_neg (by omega), hfs1, hfl0]
      · rw [show (g ∈ (s.current_gen + 1) :: s.compacted_gen)
            = (g ∈ s.compacted_gen) from by
          simp only [List.mem_cons, eq_iff_iff]
          constructor
          · intro hh
            rcases hh with h1 | h1
            · omega
            · exact h1
          · intro hh
            exact Or.inr hh]
        have := h.flags_match e0 he0
        rw [hee'] at this
        exact this
  have hcgnd : ((s.current_gen + 1) :: s.compacted_gen).Nodup := by
    simp only [List.nodup_cons]
    exact ⟨hCnotin, h.compacted_nodup⟩
  obtain ⟨cgf, rsf, fsf, hrun, hfs, hrs, hmemf, hndf⟩ :=
    deleteLoop_spec (((ainsert (s.current_gen + 1) 0 rs2).map (fun r => r.1)).filter
        (fun g => decide (g < s.current_gen + 1)))
      ((s.current_gen + 1) :: s.compacted_gen)
      (ainsert (s.current_gen + 1) 0 rs2)
      (fappend (s.current_gen + 1) comp
        ((s.files ++ [(s.current_gen + 1, true, ([] : List Nat))])
          ++ [(s.current_gen + 2, false, ([] : List Nat))]))
      hstale_nd hcgnd hrd_stale hfl_stale
  have hNrs2 : ∃ cur, alookup (s.current_gen + 2) rs2 = some cur := by
    have hmem : (s.current_gen + 2) ∈ rs2.map (fun r => r.1) := by
      rw [hrs2keys, mem_map_fst_ainsert]
      exact Or.inl rfl
    rw [← alookup_isSome] at hmem
    cases hl : alookup (s.current_gen + 2) rs2 with
    | none => rw [hl] at hmem; cases hmem
    | some cur => exact ⟨cur, rfl⟩
  have hcompeq : s.compact = (Res.ok (),
      { current_gen := s.current_gen + 2, compacted_gen := cgf, readers := rsf,
        index := idx1, uncompacted_size := 0, files := fsf }) := by
    unfold KvStore.compact
    simp only []
    rw [hloop]
    simp only []
    rw [hrun]
  obtain ⟨stale, hstdef⟩ : ∃ st : List Nat,
      st = (((ainsert (s.current_gen + 1) 0 rs2).map (fun r => r.1)).filter
        (fun g => decide (g < s.current_gen + 1))) := ⟨_, rfl⟩
  rw [← hstdef] at hstale_mem hstale_nd hfs hrs hmemf
  have hCnotstale : ¬ (s.current_gen + 1) ∈ stale := by
    intro hc
    have := ((hstale_mem _).mp hc).2
    omega
  have hNnotstale : ¬ (s.current_gen + 2) ∈ stale := by
    intro hc
    have := ((hstale_mem _).mp hc).2
    omega
  have hreadkey_lt : ∀ a, a ∈ s.readers.map (fun r => r.1) → a < s.current_gen + 1 := by
    intro a ha
    rw [← alookup_isSome] at ha
    cases hl : alookup a s.readers with
    | none => rw [hl] at ha; cases ha
    | some cur =>
      obtain ⟨e0, he0, hee⟩ := h.readers_files (a, cur) (alookup_mem hl)
      have hee' : e0.1 = a := hee
      have := h.gens_le e0 he0
      omega
  have holdstale : ∀ e ∈ s.files, e.1 ∈ stale := by
    intro e he
    refine (hstale_mem _).mpr ⟨?_, ?_⟩
    · obtain ⟨cur, hc⟩ := h.files_readers e he
      exact (alookup_isSome _ _).mp (by rw [hc]; rfl)
    · have := h.gens_le e he
      omega
  have hfs2 : fappend (s.current_gen + 1) comp
      ((s.files ++ [(s.current_gen + 1, true, ([] : List Nat))])
        ++ [(s.current_gen + 2, false, ([] : List Nat))])
      = (s.files ++ [(s.current_gen + 1, true, comp)])
        ++ [(s.current_gen + 2, false, ([] : List Nat))] := by
    rw [fappend_append, fappend_append]
    rw [fappend_not_mem (fun e he => by have := h.gens_le e he; omega)]
    rw [show fappend (s.current_gen + 1) comp [(s.current_gen + 1, true, ([] : List Nat))]
        = [(s.current_gen + 1, true, comp)] from by simp [fappend]]
    rw [fappend_not_mem (fun e he => by
      simp only [List.mem_singleton] at he
      rw [he]
      show ¬ s.current_gen + 2 = s.current_gen + 1
      omega)]
  have hfsf : fsf = [(s.current_gen + 1, true, comp),
      (s.current_gen + 2, false, ([] : List Nat))] := by
    rw [hfs, foldl_aerase_filter, hfs2, List.filter_append, List.filter_append]
    rw [filter_eq_nil_of _ s.files (fun e he => by simp [holdstale e he])]
    rw [show List.filter (fun e => decide (¬ e.1 ∈ stale))
          [((s.current_gen + 1 : Nat), (true : Bool), comp)]
        = [(s.current_gen + 1, true, comp)] from by simp [hCnotstale]]
    rw [show List.filter (fun e => decide (¬ e.1 ∈ stale))
          [((s.current_gen + 2 : Nat), (false : Bool), ([] : List Nat))]
        = [(s.current_gen + 2, false, ([] : List Nat))] from by simp [hNnotstale]]
    rfl
  have hrsf : rsf = (ainsert (s.current_gen + 1) 0 rs2).filter
      (fun e => decide (¬ e.1 ∈ stale)) := by
    rw [hrs, foldl_aerase_filter]
  have hrsfC : alookup (s.current_gen + 1) rsf = some 0 := by
    rw [hrsf, alookup_filter_not_mem _ hCnotstale, alookup_ainsert_self]
  have hrsfN : ∃ cur, alookup (s.current_gen + 2) rsf = some cur := by
    rw [hrsf, alookup_filter_not_mem _ hNnotstale,
      alookup_ainsert_ne 0 rs2 (by omega)]
    exact hNrs2
  have hlookC : alookup (s.current_gen + 1) [(s.current_gen + 1, true, comp),
      (s.current_gen + 2, false, ([] : List Nat))] = some (true, comp) := by
    simp [alookup]
  have hlookN : alookup (s.current_gen + 2) [(s.current_gen + 1, true, comp),
      (s.current_gen + 2, false, ([] : List Nat))] = some (false, ([] : List Nat)) := by
    simp [alookup]
  have hidxkeys : ∀ k, (alookup k idx1).isSome = (alookup k s.index).isSome := by
    intro k
    by_cases hm : k ∈ s.index.map (fun e => e.1)
    · rw [(alookup_isSome k idx1).mpr (by rw [hkeysi]; exact hm),
        (alookup_isSome k s.index).mpr hm]
    · have h1 : ¬ (alookup k idx1).isSome = true := fun hh =>
        hm (by rw [← hkeysi]; exact (alookup_isSome k idx1).mp hh)
      have h2 : ¬ (alookup k s.index).isSome = true := fun hh =>
        hm ((alookup_isSome k s.index).mp hh)
      rw [Bool.not_eq_true] at h1 h2
      rw [h1, h2]
  have hCincgf : (s.current_gen + 1) ∈ cgf :=
    (hmemf _).mpr ⟨List.mem_cons_self _ _, hCnotstale⟩
  have hcgf_eq : ∀ a ∈ cgf, a = s.current_gen + 1 := by
    intro a ha
    obtain ⟨hin, hnst⟩ := (hmemf a).mp ha
    rcases List.mem_cons.mp hin with h1 | h1
    · exact h1
    · exfalso
      obtain ⟨e0, he0, hee⟩ := h.compacted_sub a h1
      exact hnst (hee ▸ holdstale e0 he0)
  obtain ⟨sfin, hsfin⟩ : ∃ t : KvStore, t =
      { current_gen := s.current_gen + 2,
        compacted_gen := cgf, readers := rsf, index := idx1,
        uncompacted_size := 0, files := fsf } := ⟨_, rfl⟩
  have hcompeq' : s.compact = (Res.ok (), sfin) := by rw [hsfin]; exact hcompeq
  have hsf1 : sfin.current_gen = s.current_gen + 2 := by rw [hsfin]
  have hsf2 : sfin.compacted_gen = cgf := by rw [hsfin]
  have hsf3 : sfin.readers = rsf := by rw [hsfin]
  have hsf4 : sfin.index = idx1 := by rw [hsfin]
  have hsf5 : sfin.uncompacted_size = 0 := by rw [hsfin]
  have hsf6 : sfin.files = fsf := by rw [hsfin]
  have hsv : ∀ k, stateVal sfin k = stateVal s k := by
    intro k
    cases hik : alookup k idx1 with
    | none =>
      have hnone : alookup k s.index = none := by
        have hb := hidxkeys k
        rw [hik] at hb
        cases hs' : alookup k s.index with
        | none => rfl
        | some p => rw [hs'] at hb; simp at hb
      have hl : stateVal sfin k = none := by
        unfold stateVal
        rw [hsf4, hik]
      have hr : stateVal s k = none := by
        unfold stateVal
        rw [hnone]
      rw [hl, hr]
    | some p =>
      obtain ⟨hgen, hpos0, hbnd, v, hvk, hdec⟩ := hpos k p hik
      have hl : stateVal sfin k = some v := by
        unfold stateVal
        rw [hsf4, hik]
        simp only []
        rw [hsf6, hgen, hfsf, hlookC]
        simp only []
        rw [Nat.sub_zero] at hdec
        rw [hdec]
      rw [hl, hvk]
  have hreplay : ∀ k, alookup k (replayAll fsf) = stateVal s k := by
    intro k
    rw [hfsf]
    rw [show (([(s.current_gen + 1, true, comp),
          (s.current_gen + 2, false, ([] : List Nat))]) : Files)
        = [(s.current_gen + 1, true, comp)]
          ++ [(s.current_gen + 2, false, ([] : List Nat))] from rfl]
    rw [replayAll_append_single]
    simp only []
    rw [replayFile_nil]
    rw [show replayAll [((s.current_gen + 1 : Nat), (true : Bool), comp)]
        = replayFile [] comp from rfl]
    rw [hcomp, replayFile_chunks _ _ hok, hfold]
    by_cases hio : (alookup k s.index).isSome = true
    · rw [if_pos hio]
    · rw [if_neg hio]
      have hnone : alookup k s.index = none := by
        cases hs' : alookup k s.index with
        | none => rfl
        | some p => rw [hs'] at hio; exact absurd rfl hio
      rw [show stateVal s k = none from by unfold stateVal; rw [hnone]]
      rfl
  rw [hcompeq']
  refine ⟨rfl, ?_, ?_, ?_, ?_, ?_⟩
  · show Inv sfin
    refine ⟨?_, ?_, ?_, ?_, ?_, ?_, ?_, ?_, ?_, ?_, ?_, ?_, ?_⟩
    · rw [hsf6, hfsf]
      refine List.pairwise_cons.mpr ⟨?_, ?_⟩
      · intro b hb
        rw [List.mem_singleton] at hb
        rw [hb]
        show s.current_gen + 1 < s.current_gen + 2
        omega
      · exact List.pairwise_cons.mpr
          ⟨fun c hc => absurd hc (by simp), List.Pairwise.nil⟩
    · refine ⟨[], ?_⟩
      rw [hsf1, hsf6, hfsf]
      exact hlookN
    · intro e he
      rw [hsf6, hfsf] at he
      rw [hsf1]
      rcases List.mem_cons.mp he with h1 | h1
      · rw [h1]
        show s.current_gen + 1 ≤ s.current_gen + 2
        omega
      · rw [List.mem_singleton] at h1
        rw [h1]
    · intro e he
      rw [hsf6, hfsf] at he
      rw [hsf3]
      rcases List.mem_cons.mp he with h1 | h1
      · rw [h1]
        exact ⟨0, hrsfC⟩
      · rw [List.mem_singleton] at h1
        rw [h1]
        exact hrsfN
    · intro r hr
      rw [hsf3, hrsf] at hr
      obtain ⟨hr3, hpred⟩ := List.mem_filter.mp hr
      have hnst : ¬ r.1 ∈ stale := by simpa using hpred
      have hkey : r.1 ∈ (ainsert (s.current_gen + 1) 0 rs2).map (fun r => r.1) :=
        List.mem_map_of_mem _ hr3
      rcases (hmem_rs3 r.1).mp hkey with h1 | h1 | h1
      · rw [hsf6, hfsf]
        exact ⟨(s.current_gen + 1, true, comp), by simp, h1.symm⟩
      · rw [hsf6, hfsf]
        exact ⟨(s.current_gen + 2, false, ([] : List Nat)), by simp, h1.symm⟩
      · exact absurd ((hstale_mem r.1).mpr ⟨h1, hreadkey_lt r.1 h1⟩) hnst
    · rw [hsf3, hrsf]
      exact nodup_fst_filter _ _ hrs3keysnd
    · intro e he
      rw [hsf6, hfsf] at he
      rw [hsf2]
      rcases List.mem_cons.mp he with h1 | h1
      · rw [h1]
        constructor
        · intro _
          exact hCincgf
        · intro _
          rfl
      · rw [List.mem_singleton] at h1
        rw [h1]
        constructor
        · intro hc
          exact Bool.noConfusion hc
        · intro hc
          exfalso
          have h2 := hcgf_eq (s.current_gen + 2) hc
          omega
    · intro g hg
      rw [hsf2] at hg
      have hgC := hcgf_eq g hg
      rw [hsf6, hfsf]
      exact ⟨(s.current_gen + 1, true, comp), by simp, hgC.symm⟩
    · rw [hsf2]
      exact hndf
    · rw [hsf4, hkeysi]
      exact h.idx_nodup
    · intro k p hkp
      rw [hsf4] at hkp
      obtain ⟨hgen, hpos0, hbnd, v, hvk, hdec⟩ := hpos k p hkp
      refine ⟨true, comp, ?_, ?_, v, ?_⟩
      · rw [hsf6, hgen, hfsf]
        exact hlookC
      · omega
      · rw [Nat.sub_zero] at hdec
        exact hdec
    · intro e he
      rw [hsf6, hfsf] at he
      rcases List.mem_cons.mp he with h1 | h1
      · rw [h1]
        exact ⟨chs, hcomp, hok⟩
      · rw [List.mem_singleton] at h1
        rw [h1]
        exact ⟨[], rfl, fun ch hch => absurd hch (by simp)⟩
    · intro k
      rw [hsf6, hreplay k]
      exact (hsv k).symm
  · intro k
    show stateVal sfin k = stateVal s k
    exact hsv k
  · intro k
    show (alookup k sfin.index).isSome = (alookup k s.index).isSome
    rw [hsf4]
    exact hidxkeys k
  · show sfin.uncompacted_size = 0
    rw [hsf5]
  · show sfin.current_gen = s.current_gen + 2
    rw [hsf1]

/-- `set` under the invariant: it returns `Ok`, preserves the invariant,
and updates the visible state pointwise (compacting or not). -/
theorem set_spec {s : KvStore} (h : Inv s) (k v : BStr) :
    (s.set k v).1 = Res.ok () ∧ Inv (s.set k v).2 ∧
    (∀ k', stateVal (s.set k v).2 k' = if k' = k then some v else stateVal s k') := by
  obtain ⟨c, hc⟩ := h.cur_live
  obtain ⟨hinv1, hsv1⟩ := setState_inv h k v hc
  have heq : s.set k v = (if COMPACTION_THRESHOLD < (setState s k v c).uncompacted_size
      then (setState s k v c).compact else (Res.ok (), setState s k v c)) := by
    unfold KvStore.set
    rw [hc]
    rfl
  rw [heq]
  by_cases hth : COMPACTION_THRESHOLD < (setState s k v c).uncompacted_size
  · rw [if_pos hth]
    obtain ⟨h1, h2, h3, _, _, _⟩ := compact_spec hinv1
    refine ⟨h1, h2, ?_⟩
    intro k'
    rw [h3 k', hsv1 k']
  · rw [if_neg hth]
    exact ⟨rfl, hinv1, hsv1⟩

/-- The oracle `setNC` behaves exactly like the pre-compaction phase of
`set`. -/
theorem setNC_spec {s : KvStore} (h : Inv s) (k v : BStr) :
    (s.setNC k v).1 = Res.ok () ∧ Inv (s.setNC k v).2 ∧
    (∀ k', stateVal (s.setNC k v).2 k' = if k' = k then some v else stateVal s k') := by
  obtain ⟨c, hc⟩ := h.cur_live
  obtain ⟨hinv1, hsv1⟩ := setState_inv h k v hc
  have heq : s.setNC k v = (Res.ok (), setState s k v c) := by
    unfold KvStore.setNC
    rw [hc]
    rfl
  rw [heq]
  exact ⟨rfl, hinv1, hsv1⟩

/-- `remove` on an absent key fails with `KeyNotFound` and changes
nothing. -/
theorem remove_spec_none {s : KvStore} {k : BStr}
    (hk : alookup k s.index = none) :
    s.remove k = (Res.err KvsError.keyNotFound, s) := by
  unfold KvStore.remove
  rw [hk]

/-- The oracle `removeNC` on an absent key fails with `KeyNotFound` and
changes nothing. -/
theorem removeNC_spec_none {s : KvStore} {k : BStr}
    (hk : alookup k s.index = none) :
    s.removeNC k = (Res.err KvsError.keyNotFound, s) := by
  unfold KvStore.removeNC
  rw [hk]

/-- `remove` on a present key: it returns `Ok`, preserves the invariant,
and erases exactly the removed key from the visible state. -/
theorem remove_spec_some {s : KvStore} (h : Inv s) {k : BStr} {p : CommandPos}
    (hk : alookup k s.index = some p) :
    (s.remove k).1 = Res.ok () ∧ Inv (s.remove k).2 ∧
    (∀ k', stateVal (s.remove k).2 k' = if k' = k then none else stateVal s k') := by
  obtain ⟨c, hc⟩ := h.cur_live
  obtain ⟨hinv1, hsv1⟩ := removeState_inv h k p.len hc
  have heq : s.remove k = (if COMPACTION_THRESHOLD < (removeState s k p.len).uncompacted_size
      then (removeState s k p.len).compact else (Res.ok (), removeState s k p.len)) := by
    unfold KvStore.remove
    rw [hk, hc]
    rfl
  rw [heq]
  by_cases hth : COMPACTION_THRESHOLD < (removeState s k p.len).uncompacted_size
  · rw [if_pos hth]
    obtain ⟨h1, h2, h3, _, _, _⟩ := compact_spec hinv1
    refine ⟨h1, h2, ?_⟩
    intro k'
    rw [h3 k', hsv1 k']
  · rw [if_neg hth]
    exact ⟨rfl, hinv1, hsv1⟩

/-- The oracle `removeNC` on a present key. -/
theorem removeNC_spec_some {s : KvStore} (h : Inv s) {k : BStr} {p : CommandPos}
    (hk : alookup k s.index = some p) :
    (s.removeNC k).1 = Res.ok () ∧ Inv (s.removeNC k).2 ∧
    (∀ k', stateVal (s.removeNC k).2 k' = if k' = k then none else stateVal s k') := by
  obtain ⟨c, hc⟩ := h.cur_live
  obtain ⟨hinv1, hsv1⟩ := removeState_inv h k p.len hc
  have heq : s.removeNC k = (Res.ok (), removeState s k p.len) := by
    unfold KvStore.removeNC
    rw [hk, hc]
    rfl
  rw [heq]
  exact ⟨rfl, hinv1, hsv1⟩

/-- Under the invariant the abstract value is defined exactly on the
index keys: every index entry decodes to a `Set`. -/
theorem stateVal_entry {s : KvStore} (h : Inv s) (k : BStr) :
    (stateVal s k).isSome = (alookup k s.index).isSome := by
  cases hik : alookup k s.index with
  | none =>
    rw [show stateVal s k = none from by unfold stateVal; rw [hik]]
    rfl
  | some p =>
    obtain ⟨fl, content, hfc, hb, v, hd⟩ := h.idx_pos k p hik
    rw [show stateVal s k = some v from by
      unfold stateVal
      rw [hik]
      simp only []
      rw [hfc]
      simp only []
      rw [hd]]
    rfl

/-- The store created on an empty directory satisfies the invariant. -/
theorem initStore_inv : Inv initStore := by
  refine ⟨?_, ⟨[], rfl⟩, ?_, ?_, ?_, ?_, ?_, ?_, ?_, ?_, ?_, ?_, ?_⟩
  · exact List.pairwise_cons.mpr ⟨fun c hc => absurd hc (by simp), List.Pairwise.nil⟩
  · intro e he
    rcases List.mem_singleton.mp he with h1
    rw [h1]
    decide
  · intro e he
    rcases List.mem_singleton.mp he with h1
    rw [h1]
    exact ⟨0, rfl⟩
  · intro r hr
    rcases List.mem_singleton.mp hr with h1
    rw [h1]
    exact ⟨(1, false, []), by decide, rfl⟩
  · decide
  · intro e he
    rcases List.mem_singleton.mp he with h1
    rw [h1]
    decide
  · intro g hg
    cases hg
  · exact List.Pairwise.nil
  · decide
  · intro k p hkp
    cases hkp
  · intro e he
    rcases List.mem_singleton.mp he with h1
    rw [h1]
    exact ⟨[], rfl, fun ch hch => absurd hch (by simp)⟩
  · intro k
    rfl

/-- `op` does not write key `k`. -/
def opAvoids (k : BStr) : Op → Bool
  | Op.set k0 _ => decide (¬ k0 = k)
  | Op.remove k0 => decide (¬ k0 = k)
  | Op.get _ => true

/-- One machine step preserves the invariant. -/
theorem stepObs_inv {s : KvStore} (h : Inv s) (op : Op) : Inv (stepObs s op).2 := by
  cases op with
  | set k v => exact (set_spec h k v).2.1
  | remove k =>
    cases hk : alookup k s.index with
    | none =>
      show Inv (s.remove k).2
      rw [remove_spec_none hk]
      exact h
    | some p => exact (remove_spec_some h hk).2.1
  | get k =>
    show Inv (s.get k).2
    rw [(get_spec h k).2.2]
    exact Inv_readers_update h _ (get_spec h k).2.1

/-- A step that avoids key `k` leaves the abstract value of `k`
unchanged. -/
theorem stepObs_other_key {s : KvStore} (h : Inv s) {op : Op} {k : BStr}
    (hop : opAvoids k op = true) :
    stateVal (stepObs s op).2 k = stateVal s k := by
  cases op with
  | set k0 v =>
    have hne : ¬ k = k0 := by
      simp only [opAvoids, decide_eq_true_eq] at hop
      exact fun hh => hop hh.symm
    show stateVal (s.set k0 v).2 k = stateVal s k
    rw [(set_spec h k0 v).2.2 k, if_neg hne]
  | remove k0 =>
    have hne : ¬ k = k0 := by
      simp only [opAvoids, decide_eq_true_eq] at hop
      exact fun hh => hop hh.symm
    cases hk : alookup k0 s.index with
    | none =>
      show stateVal (s.remove k0).2 k = stateVal s k
      rw [remove_spec_none hk]
    | some p =>
      show stateVal (s.remove k0).2 k = stateVal s k
      rw [(remove_spec_some h hk).2.2 k, if_neg hne]
  | get k0 =>
    show stateVal (s.get k0).2 k = stateVal s k
    rw [(get_spec h k0).2.2]
    rfl

/-- Running operations that avoid `k` preserves the invariant and the
abstract value of `k`. -/
theorem runOps_preserve {k : BStr} : ∀ (ops : List Op) {s : KvStore}, Inv s →
    (∀ op ∈ ops, opAvoids k op = true) →
    Inv (runOps stepObs s ops) ∧ stateVal (runOps stepObs s ops) k = stateVal s k := by
  intro ops
  induction ops with
  | nil => intro s hs _; exact ⟨hs, rfl⟩
  | cons op t ih =>
    intro s hs hops
    have h1 := stepObs_inv hs op
    have h2 := stepObs_other_key hs (hops op (by simp))
    obtain ⟨h3, h4⟩ := ih h1 (fun op' hop' => hops op' (by simp [hop']))
    exact ⟨h3, h4.trans h2⟩

/-- The compacting machine and the never-compacting oracle produce the
same observation trace from states with equal abstract values. -/
theorem trace_sim : ∀ (ops : List Op) {s t : KvStore}, Inv s → Inv t →
    (∀ k, stateVal s k = stateVal t k) →
    traceOps stepObs s ops = traceOps stepObsNC t ops := by
  intro ops
  induction ops with
  | nil => intro s t _ _ _; rfl
  | cons op rest ih =>
    intro s t hs ht hsv
    cases op with
    | set k v =>
      obtain ⟨hs1, hs2, hs3⟩ := set_spec hs k v
      obtain ⟨ht1, ht2, ht3⟩ := setNC_spec ht k v
      have hsv' : ∀ k', stateVal (s.set k v).2 k' = stateVal (t.setNC k v).2 k' := by
        intro k'
        rw [hs3 k', ht3 k']
        by_cases hk : k' = k
        · rw [if_pos hk, if_pos hk]
        · rw [if_neg hk, if_neg hk]
          exact hsv k'
      show (Obs.unitRes (s.set k v).1) :: traceOps stepObs (s.set k v).2 rest
          = (Obs.unitRes (t.setNC k v).1) :: traceOps stepObsNC (t.setNC k v).2 rest
      rw [hs1, ht1, ih hs2 ht2 hsv']
    | remove k =>
      have hiso : (alookup k s.index).isSome = (alookup k t.index).isSome := by
        rw [← stateVal_entry hs k, ← stateVal_entry ht k, hsv k]
      cases hks : alookup k s.index with
      | none =>
        have hkt : alookup k t.index = none := by
          rw [hks] at hiso
          cases hkt' : alookup k t.index with
          | none => rfl
          | some p => rw [hkt'] at hiso; simp at hiso
        show (Obs.unitRes (s.remove k).1) :: traceOps stepObs (s.remove k).2 rest
            = (Obs.unitRes (t.removeNC k).1) :: traceOps stepObsNC (t.removeNC k).2 rest
        rw [remove_spec_none hks, removeNC_spec_none hkt]
        simp only []
        rw [ih hs ht hsv]
      | some p =>
        have hkt : ∃ q, alookup k t.index = some q := by
          rw [hks] at hiso
          cases hkt' : alookup k t.index with
          | none => rw [hkt'] at hiso; simp at hiso
          | some q => exact ⟨q, rfl⟩
        obtain ⟨q, hq⟩ := hkt
        obtain ⟨hs1, hs2, hs3⟩ := remove_spec_some hs hks
        obtain ⟨ht1, ht2, ht3⟩ := removeNC_spec_some ht hq
        have hsv' : ∀ k', stateVal (s.remove k).2 k' = stateVal (t.removeNC k).2 k' := by
          intro k'
          rw [hs3 k', ht3 k']
          by_cases hk : k' = k
          · rw [if_pos hk, if_pos hk]
          · rw [if_neg hk, if_neg hk]
            exact hsv k'
        show (Obs.unitRes (s.remove k).1) :: traceOps stepObs (s.remove k).2 rest
            = (Obs.unitRes (t.removeNC k).1) :: traceOps stepObsNC (t.removeNC k).2 rest
        rw [hs1, ht1, ih hs2 ht2 hsv']
    | get k =>
      obtain ⟨hs1, hs2, hs3⟩ := get_spec hs k
      obtain ⟨ht1, ht2, ht3⟩ := get_spec ht k
      have hsinv : Inv (s.get k).2 := by
        rw [hs3]
        exact Inv_readers_update hs _ hs2
      have htinv : Inv (t.get k).2 := by
        rw [ht3]
        exact Inv_readers_update ht _ ht2
      have hssv : ∀ k', stateVal (s.get k).2 k' = stateVal s k' := by
        intro k'
        rw [hs3]
        rfl
      have htsv : ∀ k', stateVal (t.get k).2 k' = stateVal t k' := by
        intro k'
        rw [ht3]
        rfl
      show (Obs.valRes (s.get k).1) :: traceOps stepObs (s.get k).2 rest
          = (Obs.valRes (t.get k).1) :: traceOps stepObsNC (t.get k).2 rest
      have hsv' : ∀ k', stateVal (s.get k).2 k' = stateVal (t.get k).2 k' := by
        intro k'
        rw [hssv k', htsv k']
        exact hsv k'
      rw [hs1, ht1, hsv k, ih hsinv htinv hsv']

/-- Inserting below every element of a sorted list puts it in front. -/
theorem insertPair_lt {p : Bool × Nat} : ∀ {l : List (Bool × Nat)},
    (∀ q ∈ l, p.2 < q.2) → insertPair p l = p :: l := by
  intro l hlt
  cases l with
  | nil => rfl
  | cons q t =>
    simp only [insertPair]
    rw [if_pos (hlt q (by simp))]

/-- `sort_unstable_by` on an already gen-sorted list is the identity. -/
theorem sortPairs_sorted_id : ∀ {l : List (Bool × Nat)},
    l.Pairwise (fun a b => a.2 < b.2) → sortPairs l = l := by
  intro l
  induction l with
  | nil => intro _; rfl
  | cons p t ih =>
    intro hp
    obtain ⟨h1, h2⟩ := List.pairwise_cons.mp hp
    simp only [sortPairs]
    rw [ih h2, insertPair_lt h1]

/-- The replay relation of `build_index`: every index entry points at a
slice of a directory file that decodes to a `Set` of its key whose value
is the replayed value, and the keys off the index are absent from the
replayed map. -/
def IdxRel (dir : Files) (idx : Index) (m : List (BStr × BStr)) : Prop :=
  ∀ k, match alookup k idx with
    | some p => ∃ fl content, alookup p.gen dir = some (fl, content) ∧
        p.pos + p.len ≤ content.length ∧
        ∃ v, decodeOne ((content.drop p.pos).take p.len) = some (Command.set k v) ∧
          alookup k m = some v
    | none => alookup k m = none

theorem IdxRel_nil (dir : Files) : IdxRel dir [] [] := by
  intro k
  rfl

/-- Folding replay triples keeps the index keys duplicate-free. -/
theorem applyTrip_fold_nodup (g : Nat) : ∀ (tr : List (Command × Nat × Nat)) (idx : Index),
    (idx.map (fun e => e.1)).Nodup →
    (((tr.foldl (applyTrip g) idx)).map (fun e => e.1)).Nodup := by
  intro tr
  induction tr with
  | nil => intro idx hh; exact hh
  | cons t0 tt ih =>
    intro idx hh
    simp only [List.foldl_cons]
    apply ih
    cases ht : t0.1 with
    | set k v =>
      rw [show applyTrip g idx t0 = ainsert k ⟨g, t0.2.1, t0.2.2⟩ idx from by
        unfold applyTrip
        rw [ht]]
      exact nodup_ainsert _ _ _ hh
    | remove k =>
      rw [show applyTrip g idx t0 = aerase k idx from by
        unfold applyTrip
        rw [ht]]
      exact nodup_aerase _ _ hh

/-- Folding one chunked file's replay triples preserves the replay
relation, the map side folding the records themselves. -/
theorem applyTrip_fold_rel (dir : Files) (g : Nat) (fl0 : Bool) (full : List Nat)
    (hg : alookup g dir = some (fl0, full)) :
    ∀ (chs : List (List Nat × Command)) (pre : List Nat) (idx : Index)
      (m : List (BStr × BStr)),
    full = pre ++ chunksBytes chs → ChunksOk chs → IdxRel dir idx m →
    IdxRel dir ((chunkTrips chs pre.length).foldl (applyTrip g) idx)
      ((chs.map (fun ch => ch.2)).foldl applyCmd m) := by
  intro chs
  induction chs with
  | nil =>
    intro pre idx m _ _ hrel
    exact hrel
  | cons ch t ih =>
    intro pre idx m hfull hok hrel
    have hslice : (full.drop pre.length).take ch.1.length = ch.1 := by
      rw [hfull, show chunksBytes (ch :: t) = ch.1 ++ chunksBytes t from rfl]
      rw [show pre ++ (ch.1 ++ chunksBytes t) = pre ++ ch.1 ++ chunksBytes t from by
        rw [List.append_assoc]]
      rw [show (pre ++ ch.1 ++ chunksBytes t).drop pre.length = ch.1 ++ chunksBytes t from by
        rw [List.append_assoc, List.drop_left]]
      exact List.take_left ch.1 (chunksBytes t)
    have hbnd : pre.length + ch.1.length ≤ full.length := by
      rw [hfull, show chunksBytes (ch :: t) = ch.1 ++ chunksBytes t from rfl]
      simp
    have hdec : decodeOne ch.1 = some ch.2 :=
      decodeOne_iff.mpr (hok ch (by simp))
    have hstep : IdxRel dir (applyTrip g idx (ch.2, pre.length, ch.1.length))
        (applyCmd m ch.2) := by
      cases hc : ch.2 with
      | set k0 v0 =>
        intro k
        rw [show applyTrip g idx (Command.set k0 v0, pre.length, ch.1.length)
            = ainsert k0 ⟨g, pre.length, ch.1.length⟩ idx from rfl]
        rw [show applyCmd m (Command.set k0 v0) = ainsert k0 v0 m from rfl]
        by_cases hk : k = k0
        · subst hk
          rw [alookup_ainsert_self]
          refine ⟨fl0, full, hg, hbnd, v0, ?_, alookup_ainsert_self _ _ _⟩
          rw [hslice, hdec, hc]
        · rw [alookup_ainsert_ne _ _ (fun hh => hk hh.symm)]
          have := hrel k
          cases hik : alookup k idx with
          | none =>
            rw [hik] at this
            rw [alookup_ainsert_ne _ _ (fun hh => hk hh.symm)]
            exact this
          | some p =>
            rw [hik] at this
            obtain ⟨fl1, c1, hl1, hb1, v1, hd1, hm1⟩ := this
            exact ⟨fl1, c1, hl1, hb1, v1, hd1, by
              rw [alookup_ainsert_ne _ _ (fun hh => hk hh.symm)]
              exact hm1⟩
      | remove k0 =>
        intro k
        rw [show applyTrip g idx (Command.remove k0, pre.length, ch.1.length)
            = aerase k0 idx from rfl]
        rw [show applyCmd m (Command.remove k0) = aerase k0 m from rfl]
        by_cases hk : k = k0
        · subst hk
          rw [alookup_aerase_self]
          rw [alookup_aerase_self]
        · rw [alookup_aerase_ne _ (fun hh => hk hh.symm)]
          have := hrel k
          cases hik : alookup k idx with
          | none =>
            rw [hik] at this
            rw [alookup_aerase_ne _ (fun hh => hk hh.symm)]
            exact this
          | some p =>
            rw [hik] at this
            obtain ⟨fl1, c1, hl1, hb1, v1, hd1, hm1⟩ := this
            exact ⟨fl1, c1, hl1, hb1, v1, hd1, by
              rw [alookup_aerase_ne _ (fun hh => hk hh.symm)]
              exact hm1⟩
    have hrec := ih (pre ++ ch.1) (applyTrip g idx (ch.2, pre.length, ch.1.length))
      (applyCmd m ch.2)
      (by rw [hfull, show chunksBytes (ch :: t) = ch.1 ++ chunksBytes t from rfl,
        List.append_assoc])
      (fun c hcm => hok c (by simp [hcm]))
      hstep
    rw [show chunkTrips (ch :: t) pre.length
        = (ch.2, pre.length, ch.1.length) :: chunkTrips t (pre.length + ch.1.length) from rfl]
    rw [show (ch :: t).map (fun ch => ch.2) = ch.2 :: t.map (fun ch => ch.2) from rfl]
    simp only [List.foldl_cons]
    rw [show (pre ++ ch.1).length = pre.length + ch.1.length from by simp] at hrec
    exact hrec

/-- `build_index` over chunk-clean directory files succeeds and leaves the
index in the replay relation with the replayed map. -/
theorem buildIndexAll_rel (dir : Files) :
    ∀ (ds : Files) (idx : Index) (m : List (BStr × BStr)),
    (∀ e ∈ ds, alookup e.1 dir = some e.2 ∧ ∃ chs, e.2.2 = chunksBytes chs ∧ ChunksOk chs) →
    IdxRel dir idx m →
    (idx.map (fun e => e.1)).Nodup →
    ∃ idx1, buildIndexAll (ds.map (fun e => (e.2.1, e.1))) dir idx = Except.ok idx1 ∧
      IdxRel dir idx1 (ds.foldl (fun m e => replayFile m e.2.2) m) ∧
      (idx1.map (fun e => e.1)).Nodup := by
  intro ds
  induction ds with
  | nil =>
    intro idx m _ hrel hnd
    exact ⟨idx, rfl, hrel, hnd⟩
  | cons e t ih =>
    intro idx m hds hrel hnd
    obtain ⟨hle, chs, hch, hok⟩ := hds e (by simp)
    have hstep0 := applyTrip_fold_rel dir e.1 e.2.1 e.2.2 (by
      rw [hle]) chs [] idx m (by rw [hch]; rfl) hok hrel
    have hstep : IdxRel dir ((chunkTrips chs 0).foldl (applyTrip e.1) idx)
        ((chs.map (fun ch => ch.2)).foldl applyCmd m) := hstep0
    have hnd1 := applyTrip_fold_nodup e.1 (chunkTrips chs 0) idx hnd
    obtain ⟨idx1, hb, hrel1, hnd2⟩ := ih ((chunkTrips chs 0).foldl (applyTrip e.1) idx)
      ((chs.map (fun ch => ch.2)).foldl applyCmd m)
      (fun e' he' => hds e' (by simp [he'])) hstep hnd1
    refine ⟨idx1, ?_, ?_, hnd2⟩
    · rw [show (e :: t).map (fun e => (e.2.1, e.1)) = (e.2.1, e.1) :: t.map (fun e => (e.2.1, e.1))
          from rfl]
      rw [show buildIndexAll ((e.2.1, e.1) :: t.map (fun e => (e.2.1, e.1))) dir idx
          = (match alookup e.1 dir with
            | none => Except.error KvsError.io
            | some fe =>
              match parseAllFrom fe.2 0 with
              | none => Except.error KvsError.deserialization
              | some tr => buildIndexAll (t.map (fun e => (e.2.1, e.1))) dir
                  (tr.foldl (applyTrip e.1) idx)) from rfl]
      rw [hle]
      simp only []
      rw [show (e.2 : Bool × List Nat).2 = e.2.2 from rfl, hch,
        parseAllFrom_chunks chs hok 0]
      simp only []
      exact hb
    · rw [show (e :: t).foldl (fun m e => replayFile m e.2.2) m
          = t.foldl (fun m e => replayFile m e.2.2) (replayFile m e.2.2) from rfl]
      rw [show replayFile m e.2.2 = (chs.map (fun ch => ch.2)).foldl applyCmd m from by
        rw [hch]
        exact replayFile_chunks m chs hok]
      exact hrel1

/-- Reopening the directory of any store state satisfying the invariant
succeeds and reproduces the invariant and every visible value. -/
theorem openStore_spec {s : KvStore} (h : Inv s) :
    ∃ t, openStore s.files = Except.ok t ∧ Inv t ∧ (∀ k, stateVal t k = stateVal s k) := by
  obtain ⟨c, hcur⟩ := h.cur_live
  obtain ⟨pre, hsplit, hprelt⟩ := files_split h.files_sorted hcur h.gens_le
  have hgnd := files_gens_nodup h
  have hpair_sorted : (s.files.map (fun e => (e.2.1, e.1))).Pairwise
      (fun a b => a.2 < b.2) := by
    rw [List.pairwise_map]
    exact h.files_sorted
  have hsorted : sortPairs (s.files.map (fun e => (e.2.1, e.1)))
      = s.files.map (fun e => (e.2.1, e.1)) := sortPairs_sorted_id hpair_sorted
  have hlast : (s.files.map (fun e => (e.2.1, e.1))).getLast?
      = some (false, s.current_gen) := by
    rw [hsplit, List.map_append]
    rw [show ([((s.current_gen : Nat), ((false : Bool), c))].map (fun e => (e.2.1, e.1)))
        = [(false, s.current_gen)] from rfl]
    exact List.getLast?_concat _
  have hds : ∀ e ∈ s.files, alookup e.1 s.files = some e.2 ∧
      ∃ chs, e.2.2 = chunksBytes chs ∧ ChunksOk chs := by
    intro e he
    exact ⟨alookup_eq_of_mem hgnd (by rw [Prod.mk.eta]; exact he), h.files_chunks e he⟩
  obtain ⟨idx1, hbuild, hrel0, hnd1⟩ :=
    buildIndexAll_rel s.files s.files [] [] hds (IdxRel_nil _) (by simp)
  have hrel : IdxRel s.files idx1 (replayAll s.files) := hrel0
  have hne : (s.files.map (fun e => (e.2.1, e.1))).isEmpty = false := by
    rw [hsplit, List.map_append]
    simp
  obtain ⟨st, hstdef⟩ : ∃ t : KvStore, t =
      { current_gen := s.current_gen,
        compacted_gen := ((s.files.map (fun e => (e.2.1, e.1))).filter
          (fun p => p.1)).map (fun p => p.2),
        readers := (s.files.map (fun e => (e.2.1, e.1))).map
          (fun p => (p.2, fileLen p.2 s.files)),
        index := idx1,
        uncompacted_size := sumCompactedSizes s.files,
        files := s.files } := ⟨_, rfl⟩
  have hopen : openStore s.files = Except.ok st := by
    rw [hstdef]
    unfold openStore
    simp only []
    rw [hsorted, hlast]
    simp only []
    rw [if_neg (fun hh : ((false, s.current_gen) : Bool × Nat).1 = true =>
      Bool.noConfusion hh)]
    rw [hbuild]
    simp only []
    rw [hcur]
    simp only []
    rw [hne]
    simp only [Bool.false_eq_true, if_false]
  have hc1 : st.current_gen = s.current_gen := by rw [hstdef]
  have hc2 : st.compacted_gen = ((s.files.map (fun e => (e.2.1, e.1))).filter
      (fun p => p.1)).map (fun p => p.2) := by rw [hstdef]
  have hc3 : st.readers = (s.files.map (fun e => (e.2.1, e.1))).map
      (fun p => (p.2, fileLen p.2 s.files)) := by rw [hstdef]
  have hc4 : st.index = idx1 := by rw [hstdef]
  have hc6 : st.files = s.files := by rw [hstdef]
  have hrdkeys : st.readers.map (fun r => r.1) = s.files.map (fun e => e.1) := by
    rw [hc3, List.map_map, List.map_map]
    rfl
  have hcgmem : ∀ a, a ∈ st.compacted_gen ↔ ∃ e ∈ s.files, e.2.1 = true ∧ e.1 = a := by
    intro a
    rw [hc2]
    simp only [List.mem_map, List.mem_filter, List.mem_map]
    constructor
    · rintro ⟨p, ⟨⟨e, he, hpe⟩, hp1⟩, hp2⟩
      refine ⟨e, he, ?_, ?_⟩
      · rw [← hpe] at hp1
        simpa using hp1
      · rw [← hpe] at hp2
        exact hp2
    · rintro ⟨e, he, hfl, hgen⟩
      exact ⟨(e.2.1, e.1), ⟨⟨e, he, rfl⟩, by simpa using hfl⟩, hgen⟩
  have huniq : ∀ e e', e ∈ s.files → e' ∈ s.files → e.1 = e'.1 → e = e' := by
    intro e e' he he' hee
    have h1 : alookup e.1 s.files = some e.2 :=
      alookup_eq_of_mem hgnd (by rw [Prod.mk.eta]; exact he)
    have h2 : alookup e.1 s.files = some e'.2 := by
      rw [hee]
      exact alookup_eq_of_mem hgnd (by rw [Prod.mk.eta]; exact he')
    rw [h1] at h2
    injection h2 with h2
    exact Prod.ext hee h2
  have hsv : ∀ k, stateVal st k = alookup k (replayAll s.files) := by
    intro k
    have hr := hrel k
    cases hik : alookup k idx1 with
    | none =>
      rw [hik] at hr
      rw [show stateVal st k = none from by
        unfold stateVal
        rw [hc4, hik]]
      exact hr.symm
    | some p =>
      rw [hik] at hr
      obtain ⟨fl, content, hl, hb, v, hd, hm⟩ := hr
      rw [show stateVal st k = some v from by
        unfold stateVal
        rw [hc4, hik]
        simp only []
        rw [hc6, hl]
        simp only []
        rw [hd]]
      exact hm.symm
  refine ⟨st, hopen, ⟨?_, ?_, ?_, ?_, ?_, ?_, ?_, ?_, ?_, ?_, ?_, ?_, ?_⟩,
    fun k => (hsv k).trans (h.replay_eq k)⟩
  · rw [hc6]
    exact h.files_sorted
  · refine ⟨c, ?_⟩
    rw [hc1, hc6]
    exact hcur
  · intro e he
    rw [hc6] at he
    rw [hc1]
    exact h.gens_le e he
  · intro e he
    rw [hc6] at he
    have hm : e.1 ∈ st.readers.map (fun r => r.1) := by
      rw [hrdkeys]
      exact List.mem_map_of_mem _ he
    rw [← alookup_isSome] at hm
    cases hl : alookup e.1 st.readers with
    | none => rw [hl] at hm; cases hm
    | some cur => exact ⟨cur, rfl⟩
  · intro r hr
    have hm : r.1 ∈ s.files.map (fun e => e.1) := by
      rw [← hrdkeys]
      exact List.mem_map_of_mem _ hr
    obtain ⟨e, he, hee⟩ := List.mem_map.mp hm
    rw [hc6]
    exact ⟨e, he, hee⟩
  · rw [hrdkeys]
    exact hgnd
  · intro e he
    rw [hc6] at he
    constructor
    · intro hfl
      exact (hcgmem e.1).mpr ⟨e, he, hfl, rfl⟩
    · intro hcg
      obtain ⟨e', he', hfl', hgen'⟩ := (hcgmem e.1).mp hcg
      rw [← huniq e' e he' he hgen']
      exact hfl'
  · intro g hg
    obtain ⟨e, he, _, hgen⟩ := (hcgmem g).mp hg
    rw [hc6]
    exact ⟨e, he, hgen⟩
  · rw [hc2]
    refine List.Nodup.sublist (List.Sublist.map _ (List.filter_sublist _)) ?_
    rw [List.map_map]
    exact hgnd
  · rw [hc4]
    exact hnd1
  · intro k p hkp
    rw [hc4] at hkp
    have hr := hrel k
    rw [hkp] at hr
    obtain ⟨fl, content, hl, hb, v, hd, _⟩ := hr
    rw [hc6]
    exact ⟨fl, content, hl, hb, v, hd⟩
  · intro e he
    rw [hc6] at he
    exact h.files_chunks e he
  · intro k
    rw [hc6, hsv k]

/-- Store states reachable by the program: the store `open` builds on an
empty directory, any machine step, and reopening a reachable store's
directory. -/
inductive Reachable : KvStore → Prop where
  | init : Reachable initStore
  | step (s : KvStore) (op : Op) : Reachable s → Reachable (stepObs s op).2
  | reopen (s t : KvStore) : Reachable s → openStore s.files = Except.ok t → Reachable t

/-- Every reachable state satisfies the invariant. -/
theorem reachable_inv {s : KvStore} (h : Reachable s) : Inv s := by
  induction h with
  | init => exact initStore_inv
  | step s op _ ih => exact stepObs_inv ih op
  | reopen s t _ hopen ih =>
    obtain ⟨t', hopen', hinv', _⟩ := openStore_spec ih
    rw [hopen] at hopen'
    injection hopen' with hh
    rw [hh]
    exact hinv'

/-- Any run preserves the invariant. -/
theorem runOps_inv : ∀ (ops : List Op) {s : KvStore}, Inv s →
    Inv (runOps stepObs s ops) := by
  intro ops
  induction ops with
  | nil => intro s hs; exact hs
  | cons op t ih =>
    intro s hs
    exact ih (stepObs_inv hs op)

/-- C1 (read-your-writes): from any reachable state, after `set(k, v)`
returns `Ok`, a `get(k)` run after any further operations that neither
set nor remove `k` returns `Ok(Some(v))`. -/
theorem C1_read_your_writes {s : KvStore} (h : Reachable s) (k v : BStr) (ops : List Op)
    (hops : ∀ op ∈ ops, opAvoids k op = true) :
    (s.set k v).1 = Res.ok () ∧
    ((runOps stepObs (s.set k v).2 ops).get k).1 = Res.ok (some v) := by
  have hinv := reachable_inv h
  obtain ⟨h1, h2, h3⟩ := set_spec hinv k v
  obtain ⟨h4, h5⟩ := runOps_preserve ops h2 hops
  refine ⟨h1, ?_⟩
  rw [(get_spec h4 k).1, h5, h3 k, if_pos rfl]

theorem C1_read_your_writes_witness :
    (initStore.set [97] [98]).1 = Res.ok () ∧
    ((runOps stepObs (initStore.set [97] [98]).2 [Op.get [99]]).get [97]).1
      = Res.ok (some [98]) :=
  C1_read_your_writes Reachable.init [97] [98] [Op.get [99]]
    (by
      intro op hop
      rw [List.mem_singleton] at hop
      subst hop
      rfl)

/-- C2 (persistence round-trip): running any operations on the store
opened on an empty directory and reopening the resulting directory
yields a store whose every `get` result matches the one before the
close. -/
theorem C2_persistence (ops : List Op) :
    ∃ t, openStore (runOps stepObs initStore ops).files = Except.ok t ∧
      ∀ k, (t.get k).1 = ((runOps stepObs initStore ops).get k).1 := by
  have hinv : Inv (runOps stepObs initStore ops) := runOps_inv ops initStore_inv
  obtain ⟨t, hopen, hinvt, hsv⟩ := openStore_spec hinv
  refine ⟨t, hopen, ?_⟩
  intro k
  rw [(get_spec hinvt k).1, (get_spec hinv k).1, hsv k]

/-- C3 (compaction invariance): on any operation sequence from the empty
store, the observation trace of the real machine equals the trace of the
oracle machine that never compacts. -/
theorem C3_compaction_invariance (ops : List Op) :
    traceOps stepObs initStore ops = traceOps stepObsNC initStore ops :=
  trace_sim ops initStore_inv initStore_inv (fun _ => rfl)

/-- C4 (remove semantics and atomicity): from any reachable state,
`remove(k)` returns `Ok` exactly when `k` is indexed; on an absent key it
returns `Err(KeyNotFound)` and leaves the state untouched; after a
successful `remove(k)`, `get(k)` returns `Ok(None)` and a second
`remove(k)` fails with `KeyNotFound`. -/
theorem C4_remove_semantics {s : KvStore} (h : Reachable s) (k : BStr) :
    ((s.remove k).1 = Res.ok () ↔ (alookup k s.index).isSome = true) ∧
    (alookup k s.index = none → s.remove k = (Res.err KvsError.keyNotFound, s)) ∧
    ((alookup k s.index).isSome = true →
      ((s.remove k).2.get k).1 = Res.ok none ∧
      ((s.remove k).2.remove k).1 = Res.err KvsError.keyNotFound) := by
  have hinv := reachable_inv h
  cases hk : alookup k s.index with
  | none =>
    have he := remove_spec_none hk
    refine ⟨⟨?_, ?_⟩, fun _ => he, ?_⟩
    · intro hok
      rw [he] at hok
      exact Res.noConfusion hok
    · intro hs
      exact Bool.noConfusion hs
    · intro hs
      exact absurd hs (by simp)
  | some p =>
    obtain ⟨h1, h2, h3⟩ := remove_spec_some hinv hk
    have hsv : stateVal (s.remove k).2 k = none := by
      rw [h3 k, if_pos rfl]
    have hidx : alookup k (s.remove k).2.index = none := by
      have hes := stateVal_entry h2 k
      rw [hsv] at hes
      cases hl : alookup k (s.remove k).2.index with
      | none => rfl
      | some q =>
        rw [hl] at hes
        simp at hes
    refine ⟨⟨fun _ => rfl, fun _ => h1⟩, ?_, ?_⟩
    · intro hnone
      exact Option.noConfusion hnone
    · intro _
      refine ⟨?_, ?_⟩
      · rw [(get_spec h2 k).1, hsv]
      · rw [remove_spec_none hidx]

theorem C4_remove_semantics_witness :
    (((stepObs initStore (Op.set [97] [98])).2.remove [97]).1 = Res.ok ()
      ↔ (alookup [97] (stepObs initStore (Op.set [97] [98])).2.index).isSome = true) ∧
    (alookup [97] (stepObs initStore (Op.set [97] [98])).2.index = none →
      (stepObs initStore (Op.set [97] [98])).2.remove [97]
        = (Res.err KvsError.keyNotFound, (stepObs initStore (Op.set [97] [98])).2)) ∧
    ((alookup [97] (stepObs initStore (Op.set [97] [98])).2.index).isSome = true →
      (((stepObs initStore (Op.set [97] [98])).2.remove [97]).2.get [97]).1 = Res.ok none ∧
      (((stepObs initStore (Op.set [97] [98])).2.remove [97]).2.remove [97]).1
        = Res.err KvsError.keyNotFound) :=
  C4_remove_semantics (Reachable.step initStore (Op.set [97] [98]) Reachable.init) [97]

/-- C5 (`get` never raises `KeyNotFound`): from any reachable state,
`get(k)` returns `Ok` of an optional value; the `Remove`-decoded error
branch is unreachable. -/
theorem C5_get_never_keynotfound {s : KvStore} (h : Reachable s) (k : BStr) :
    ∃ r : Option BStr, (s.get k).1 = Res.ok r :=
  ⟨stateVal s k, (get_spec (reachable_inv h) k).1⟩

theorem C5_get_never_keynotfound_witness :
    ∃ r : Option BStr, (initStore.get [97]).1 = Res.ok r :=
  C5_get_never_keynotfound Reachable.init [97]

/-- C10 (`get` is observationally read-only): from any reachable state a
`get` returns `Ok`, leaves the index, counter, generations, compacted set
and files untouched, and any subsequent `get` returns what it would have
returned before. -/
theorem C10_get_readonly {s : KvStore} (h : Reachable s) (k k' : BStr) :
    (∃ r, (s.get k).1 = Res.ok r) ∧
    (s.get k).2.index = s.index ∧
    (s.get k).2.uncompacted_size = s.uncompacted_size ∧
    (s.get k).2.current_gen = s.current_gen ∧
    (s.get k).2.compacted_gen = s.compacted_gen ∧
    (s.get k).2.files = s.files ∧
    ((s.get k).2.get k').1 = (s.get k').1 := by
  have hinv := reachable_inv h
  obtain ⟨h1, h2, h3⟩ := get_spec hinv k
  have hinv2 : Inv (s.get k).2 := by
    rw [h3]
    exact Inv_readers_update hinv _ h2
  refine ⟨⟨stateVal s k, h1⟩, by rw [h3], by rw [h3], by rw [h3], by rw [h3], by rw [h3], ?_⟩
  rw [(get_spec hinv2 k').1, (get_spec hinv k').1]
  rw [show stateVal (s.get k).2 k' = stateVal s k' from by rw [h3]; rfl]

theorem C10_get_readonly_witness :
    (∃ r, (initStore.get [97]).1 = Res.ok r) ∧
    (initStore.get [97]).2.index = initStore.index ∧
    (initStore.get [97]).2.uncompacted_size = initStore.uncompacted_size ∧
    (initStore.get [97]).2.current_gen = initStore.current_gen ∧
    (initStore.get [97]).2.compacted_gen = initStore.compacted_gen ∧
    (initStore.get [97]).2.files = initStore.files ∧
    ((initStore.get [97]).2.get [98]).1 = (initStore.get [98]).1 :=
  C10_get_readonly Reachable.init [97] [98]

/-- C8 (corrected): a successful, non-compacting `set(k, v)` on a key not
present in the index still increases the uncompacted-byte counter, by the
encoded length of the appended record; the counter does not count only
superseded bytes. -/
theorem C8_counter_fresh_set {s : KvStore} (h : Inv s) (k v : BStr)
    (hfresh : alookup k s.index = none)
    (hnc : s.uncompacted_size + encLen (Command.set k v) ≤ COMPACTION_THRESHOLD) :
    (s.set k v).1 = Res.ok () ∧
    (s.set k v).2.uncompacted_size = s.uncompacted_size + encLen (Command.set k v) := by
  obtain ⟨c, hc⟩ := h.cur_live
  have heq0 : s.set k v = (if COMPACTION_THRESHOLD < (setState s k v c).uncompacted_size
      then (setState s k v c).compact else (Res.ok (), setState s k v c)) := by
    unfold KvStore.set
    rw [hc]
    rfl
  have hcond : ¬ COMPACTION_THRESHOLD < (setState s k v c).uncompacted_size := by
    show ¬ COMPACTION_THRESHOLD < s.uncompacted_size + encLen (Command.set k v)
    omega
  rw [heq0, if_neg hcond]
  exact ⟨rfl, rfl⟩

theorem C8_counter_fresh_set_witness :
    (initStore.set [97] [98]).1 = Res.ok () ∧
    (initStore.set [97] [98]).2.uncompacted_size
      = initStore.uncompacted_size + encLen (Command.set [97] [98]) :=
  C8_counter_fresh_set initStore_inv [97] [98] rfl (by decide)

/-- C8 counterexample: on the empty store the key `"a"` is absent from the
index, yet a successful `set` strictly changes the uncompacted-byte
counter, contradicting the claim that a fresh-key `set` leaves it
unchanged. -/
theorem C8_counterexample :
    alookup [97] initStore.index = none ∧
    (initStore.set [97] [98]).1 = Res.ok () ∧
    ¬ (initStore.set [97] [98]).2.uncompacted_size = initStore.uncompacted_size := by
  refine ⟨rfl, rfl, ?_⟩
  decide

/-- C9 (corrected): a successful, non-compacting `remove(k)` on an indexed
key increases the uncompacted-byte counter by the recorded length of the
removed record it supersedes, not by the encoded length of the appended
tombstone. -/
theorem C9_remove_accounting {s : KvStore} (h : Inv s) {k : BStr} {p : CommandPos}
    (hk : alookup k s.index = some p)
    (hnc : s.uncompacted_size + p.len ≤ COMPACTION_THRESHOLD) :
    (s.remove k).1 = Res.ok () ∧
    (s.remove k).2.uncompacted_size = s.uncompacted_size + p.len := by
  obtain ⟨c, hc⟩ := h.cur_live
  have heq0 : s.remove k = (if COMPACTION_THRESHOLD < (removeState s k p.len).uncompacted_size
      then (removeState s k p.len).compact else (Res.ok (), removeState s k p.len)) := by
    unfold KvStore.remove
    rw [hk, hc]
    rfl
  have hcond : ¬ COMPACTION_THRESHOLD < (removeState s k p.len).uncompacted_size := by
    show ¬ COMPACTION_THRESHOLD < s.uncompacted_size + p.len
    omega
  rw [heq0, if_neg hcond]
  exact ⟨rfl, rfl⟩

theorem C9_remove_accounting_witness :
    ((stepObs initStore (Op.set [97] [98])).2.remove [97]).1 = Res.ok () ∧
    ((stepObs initStore (Op.set [97] [98])).2.remove [97]).2.uncompacted_size
      = (stepObs initStore (Op.set [97] [98])).2.uncompacted_size
        + (CommandPos.mk 1 0 (encLen (Command.set [97] [98]))).len :=
  @C9_remove_accounting (stepObs initStore (Op.set [97] [98])).2
    (stepObs_inv initStore_inv (Op.set [97] [98])) [97]
    ⟨1, 0, encLen (Command.set [97] [98])⟩ rfl (by decide)

/-- C9 counterexample: after `set("a", "b")`, removing `"a"` succeeds but
the counter does not grow by the tombstone's encoded length (it grows by
the removed `Set` record's length instead). -/
theorem C9_counterexample :
    ((stepObs initStore (Op.set [97] [98])).2.remove [97]).1 = Res.ok () ∧
    ¬ ((stepObs initStore (Op.set [97] [98])).2.remove [97]).2.uncompacted_size
      = (stepObs initStore (Op.set [97] [98])).2.uncompacted_size
        + encLen (Command.remove [97]) := by
  refine ⟨rfl, ?_⟩
  decide

/-- Whether an `open` result is a store (an `Ok`). -/
def exOk {α : Type} : Except KvsError α → Bool
  | Except.ok _ => true
  | Except.error _ => false

/-- The store of an `open` result (the empty-directory store on error). -/
def exGet : Except KvsError KvStore → KvStore
  | Except.ok t => t
  | Except.error _ => initStore

/-- C6 (refuted): opening a directory whose largest-generation segment is
a compacted one chooses a bumped current generation but creates no reader
for it, so the very next `set` followed by a `get` of the same key fails
the reader lookup that the code treats as a programming error (an
`expect` panic). -/
theorem C6_index_reader_agreement_fails :
    exOk (openStore [(1, true, encodeCmd (Command.set [97] [98]))]) = true ∧
    ((exGet (openStore [(1, true, encodeCmd (Command.set [97] [98]))])).set [99] [100]).1
      = Res.ok () ∧
    (((exGet (openStore [(1, true, encodeCmd (Command.set [97] [98]))])).set
        [99] [100]).2.get [99]).1 = Res.panic := by
  exact ⟨rfl, rfl, rfl⟩

/-- Split a file name at its last dot: `some (before, after)`. -/
def rsplitDot : List Char → Option (List Char × List Char)
  | [] => none
  | c :: t =>
    match rsplitDot t with
    | some (b, a) => some (c :: b, a)
    | none => if c = '.' then some ([], t) else none

/-- `Path::extension`: the portion of the file name after the last dot;
none when there is no dot, or when the name is a dot file (the only dot
leads). -/
def extension (n : List Char) : Option (List Char) :=
  match rsplitDot n with
  | some (b, a) => if b = [] then none else some a
  | none => none

/-- `str::trim_end_matches(".log")`: strip every trailing `.log`
occurrence. -/
def trimEndLog : Nat → List Char → List Char
  | 0, n => n
  | fuel + 1, n =>
    if (('.' :: 'l' :: 'o' :: 'g' :: []) : List Char).isSuffixOf n then
      trimEndLog fuel (n.take (n.length - 4))
    else n

/-- `str::trim_start_matches('_')`: strip every leading underscore. -/
def trimUnderscores (n : List Char) : List Char :=
  n.dropWhile (fun c => c = '_')

/-- `u64::from_str`: an optional leading `+`, then one or more decimal
digits, the value below `2 ^ 64`. -/
def parseU64 (n : List Char) : Option Nat :=
  let d := match n with
    | '+' :: t => t
    | t => t
  if d.isEmpty then none
  else if d.all (fun c => decide ('0' ≤ c) && decide (c ≤ '9')) then
    let v := d.foldl (fun a c => a * 10 + (c.toNat - 48)) 0
    if v < 2 ^ 64 then some v else none
  else none

/-- `KvStore::get_log_gen` on one directory entry: keep regular files
whose extension is `log`, strip every trailing `.log`, and on a leading
underscore mark compacted and strip every leading underscore before
parsing the generation; a failed parse drops the entry. -/
def getLogGen (isFile : Bool) (name : List Char) : Option (Bool × Nat) :=
  if isFile && (extension name == some ('l' :: 'o' :: 'g' :: [])) then
    let s := trimEndLog name.length name
    if s.head? = some '_' then
      match parseU64 (trimUnderscores s) with
      | some g => some (true, g)
      | none => none
    else
      match parseU64 s with
      | some g => some (false, g)
      | none => none
  else none

/-- The whole scan of `get_log_gen`: `filter_map` the entries, then sort
by generation ascending. -/
def scanDir (entries : List (Bool × List Char)) : List (Bool × Nat) :=
  sortPairs (entries.filterMap (fun e => getLogGen e.1 e.2))

/-- The scan as the claim words it: strip the `.log` extension once,
parse the remainder after one leading underscore (or the whole stem), and
silently ignore entries whose stem fails to parse. -/
def claimGetLogGen (isFile : Bool) (name : List Char) : Option (Bool × Nat) :=
  if isFile && (extension name == some ('l' :: 'o' :: 'g' :: [])) then
    let s := name.take (name.length - 4)
    if s.head? = some '_' then
      match parseU64 s.tail with
      | some g => some (true, g)
      | none => none
    else
      match parseU64 s with
      | some g => some (false, g)
      | none => none
  else none

def claimScan (entries : List (Bool × List Char)) : List (Bool × Nat) :=
  sortPairs (entries.filterMap (fun e => claimGetLogGen e.1 e.2))

/-- The scan as amended: `trim_end_matches` strips every trailing `.log`
of the file name and `trim_start_matches` strips every leading
underscore of a compacted stem before parsing. -/
def amendedGetLogGen (isFile : Bool) (name : List Char) : Option (Bool × Nat) :=
  if isFile && (extension name == some ('l' :: 'o' :: 'g' :: [])) then
    let s := trimEndLog name.length name
    if s.head? = some '_' then
      (parseU64 (trimUnderscores s)).map (fun g => ((true : Bool), g))
    else
      (parseU64 s).map (fun g => ((false : Bool), g))
  else none

def amendedScan (entries : List (Bool × List Char)) : List (Bool × Nat) :=
  sortPairs (entries.filterMap (fun e => amendedGetLogGen e.1 e.2))

/-- C7 (corrected): the directory scan implements the amended
description, in which every trailing `.log` and every leading underscore
is stripped, so names such as `5.log.log` or `__5.log` are accepted
rather than silently ignored. -/
theorem C7_directory_scan (entries : List (Bool × List Char)) :
    scanDir entries = amendedScan entries := by
  unfold scanDir amendedScan
  have hpt : ∀ (b : Bool) (n : List Char), getLogGen b n = amendedGetLogGen b n := by
    intro b n
    unfold getLogGen amendedGetLogGen
    by_cases hcond : (b && (extension n == some ('l' :: 'o' :: 'g' :: []))) = true
    · rw [if_pos hcond, if_pos hcond]
      simp only []
      by_cases hh : (trimEndLog n.length n).head? = some '_'
      · rw [if_pos hh, if_pos hh]
        cases hp : parseU64 (trimUnderscores (trimEndLog n.length n)) with
        | none => rfl
        | some g => rfl
      · rw [if_neg hh, if_neg hh]
        cases hp : parseU64 (trimEndLog n.length n) with
        | none => rfl
        | some g => rfl
    · rw [if_neg hcond, if_neg hcond]
  have hfm : ∀ (l : List (Bool × List Char)),
      l.filterMap (fun e => getLogGen e.1 e.2)
        = l.filterMap (fun e => amendedGetLogGen e.1 e.2) := by
    intro l
    induction l with
    | nil => rfl
    | cons e t ih =>
      rw [List.filterMap_cons, List.filterMap_cons, hpt e.1 e.2, ih]
  rw [hfm]

/-- C7 counterexample: the regular file `5.log.log` has extension `log`
and stem `5.log`; the claim says it is silently ignored, but the scan
accepts it as the uncompacted generation 5. -/
theorem C7_counterexample :
    scanDir [(true, ('5' :: '.' :: 'l' :: 'o' :: 'g' :: '.' :: 'l' :: 'o' :: 'g' :: []))]
      = [(false, 5)] ∧
    claimScan [(true, ('5' :: '.' :: 'l' :: 'o' :: 'g' :: '.' :: 'l' :: 'o' :: 'g' :: []))]
      = [] := by
  exact ⟨rfl, rfl⟩

end Kvs
